import Mathlib

/-!
Verification of the UNIKIE-BENCH structured-extraction evaluation engine.

This file shallowly embeds the Python evaluation core
(`src/kie_evaluator.py` and `src/evaluate_results.py`) in Lean:

* `ValueTree` models the JSON-like value trees (scalars, lists, maps);
  `PyScalar` distinguishes the Python runtime types `str`, `int`, `float`
  and everything else (`bool`, `None`, ...), which `normalize_dict`
  inspects with `type(item) in {str, int, float}`.
* `normalize_dict` and `flatten` mirror the structure normalizer and the
  flattener of `kie_evaluator.py`.
* `cal_f1_all` mirrors the greedy duplicate-aware matcher/scorer;
  floating point is idealized as exact rational arithmetic.
* `fullwidth_to_halfwidth`, `remove_unnecessary_spaces` and
  `normalize_func` mirror the text normalizer.
* `crossSummary` mirrors the cross-dataset aggregation of
  `evaluate_results.main`, and `processRecord` the prediction loader.

Python dictionaries are modelled as association lists in insertion order
(Python dict keys are unique and iteration follows insertion order).
-/

/-- Python whitespace characters: the set matched by `str.strip()` /
`str.isspace()` and by the regex class `\s` (with the default Unicode
semantics of CPython). -/
def isPySpace (c : Char) : Bool :=
  let n := c.toNat
  (0x9 ≤ n && n ≤ 0xD) || n = 0x20 || (0x1C ≤ n && n ≤ 0x1F) || n = 0x85 ||
    n = 0xA0 || n = 0x1680 || (0x2000 ≤ n && n ≤ 0x200A) || n = 0x2028 ||
    n = 0x2029 || n = 0x202F || n = 0x205F || n = 0x3000

/-- Drop a trailing run of characters satisfying `p` (Python
`str.rstrip` with a character class). -/
def dropTrailing (p : Char → Bool) : List Char → List Char
  | [] => []
  | c :: rest =>
    let r := dropTrailing p rest
    if r.isEmpty && p c then [] else c :: r

/-- Python `str.strip()` on a character list: drop leading and trailing
whitespace. -/
def stripChars (cs : List Char) : List Char :=
  dropTrailing isPySpace (cs.dropWhile isPySpace)

/-- Python `str.strip()`. -/
def pyStrip (s : String) : String := String.mk (stripChars s.data)

/-- A Python scalar as seen by the evaluator.  `s`/`i` are genuine `str`
and `int` values; `f` is a `float` carried by its `str()` rendering
(no claim in this development depends on float arithmetic); `other` is
any other non-dict non-list value (`bool`, `None`, ...), also carried by
its `str()` rendering. -/
inductive PyScalar where
  | s (v : String)
  | i (v : Int)
  | f (v : String)
  | other (v : String)
deriving DecidableEq

/-- Python `str(x)` for a scalar. -/
def pyStr : PyScalar → String
  | .s v => v
  | .i v => toString v
  | .f v => v
  | .other v => v

/-- `type(item) in {str, int, float}` from `normalize_dict`'s scalar-list
branch. -/
def scalarTyOk : PyScalar → Bool
  | .s _ => true
  | .i _ => true
  | .f _ => true
  | .other _ => false

/-- A JSON-like value tree: scalar leaves, lists, and maps whose entries
are kept in insertion order (Python dict iteration order). -/
inductive ValueTree where
  | scalar (sc : PyScalar)
  | vlist (xs : List ValueTree)
  | vmap (kvs : List (String × ValueTree))

/-- `isinstance(x, dict)`. -/
def isDictB : ValueTree → Bool
  | .vmap _ => true
  | _ => false

/-- A non-dict non-list value, i.e. a Python scalar. -/
def isScalarB : ValueTree → Bool
  | .scalar _ => true
  | _ => false

/-- Python truthiness of a `normalize_dict` result (`if value:`): a list
or dict is truthy iff non-empty.  `normalize_dict` only ever returns
lists and dicts; scalars are given an arbitrary total extension. -/
def vtTruthy : ValueTree → Bool
  | .scalar _ => true
  | .vlist xs => !xs.isEmpty
  | .vmap kvs => !kvs.isEmpty

/-- `if not isinstance(value, list): value = [value]` from the dict
branch of `normalize_dict`. -/
def wrapIfNotList : ValueTree → ValueTree
  | .vlist xs => .vlist xs
  | v => .vlist [v]

/-- `all(isinstance(item, dict) for item in data)`. -/
def allDictsB (xs : List ValueTree) : Bool := xs.all isDictB

/-- Lexicographic strict order on character lists by code point, the
order Python uses to compare strings. -/
def strLtL : List Char → List Char → Bool
  | [], [] => false
  | [], _ :: _ => true
  | _ :: _, [] => false
  | a :: as, b :: bs =>
    if a.toNat < b.toNat then true
    else if b.toNat < a.toNat then false
    else strLtL as bs

/-- The key order of `sorted(data.keys(), key=lambda k: (len(k), k))`:
ascending by `(len(key), key)`.  Stated as a total preorder `≤` so the
stable sort below reproduces Python's stable `sorted`. -/
def pyKeyLe (a b : String) : Bool :=
  if a.data.length < b.data.length then true
  else if b.data.length < a.data.length then false
  else !(strLtL b.data a.data)

/-- The sort relation on dict entries used by `normalize_dict`. -/
def entryLe (a b : String × ValueTree) : Prop := pyKeyLe a.1 b.1 = true

instance : DecidableRel entryLe := fun a b => by
  unfold entryLe; infer_instance

/-- Branch 3 of `normalize_dict`:
`[str(item).strip() for item in data if type(item) in {str, int, float}
and str(item).strip()]` — keep scalar-typed elements whose stripped
string rendering is non-empty, as string scalars. -/
def keepScalars : List ValueTree → List ValueTree
  | [] => []
  | .scalar sc :: rest =>
    if scalarTyOk sc && !(pyStrip (pyStr sc) == "") then
      .scalar (.s (pyStrip (pyStr sc))) :: keepScalars rest
    else keepScalars rest
  | _ :: rest => keepScalars rest

/-- The dict branch's per-entry filter: keep an entry iff its normalized
value is truthy, wrapping non-list values as singleton lists. -/
def keepEntries : List (String × ValueTree) → List (String × ValueTree)
  | [] => []
  | (k, v) :: rest =>
    if vtTruthy v then (k, wrapIfNotList v) :: keepEntries rest
    else keepEntries rest

mutual
/-- `normalize_dict` from `kie_evaluator.py`.  The dict branch is
modelled by normalizing every value, sorting the entries by
`(len(key), key)` with a stable sort, and filtering out falsy results;
for the unique-key dicts Python guarantees, this equals the source's
iteration over sorted keys (keys are unaffected by normalization, the
sort is the same stable ascending sort, and the per-key filter commutes
with sorting). -/
def normalize_dict : ValueTree → ValueTree
  | .scalar sc => .vlist [.scalar (.s (pyStrip (pyStr sc)))]
  | .vlist xs =>
    if allDictsB xs then .vlist (normDictList xs)
    else .vlist (keepScalars xs)
  | .vmap kvs => .vmap (keepEntries (List.insertionSort entryLe (normEntries kvs)))

/-- Normalize every value of a dict's entry list, keeping keys. -/
def normEntries : List (String × ValueTree) → List (String × ValueTree)
  | [] => []
  | (k, v) :: rest => (k, normalize_dict v) :: normEntries rest

/-- Branch 2 of `normalize_dict`: normalize the elements of an all-dict
list, keeping only truthy (non-empty) results. -/
def normDictList : List ValueTree → List ValueTree
  | [] => []
  | x :: rest =>
    let nx := normalize_dict x
    if vtTruthy nx then nx :: normDictList rest else normDictList rest
end

/-- A flattened `(field path, leaf value)` observation. -/
abbrev FlatPair := String × PyScalar

mutual
/-- The recursive worker `_flatten(value, key)` of `flatten`: dicts
extend the path with `.`-joined keys, lists fan out on the same path,
scalars emit `(key, value)`. -/
def flattenAux : ValueTree → String → List FlatPair
  | .scalar sc, key => [(key, sc)]
  | .vlist xs, key => flattenList xs key
  | .vmap kvs, key => flattenEntries kvs key

def flattenList : List ValueTree → String → List FlatPair
  | [], _ => []
  | x :: rest, key => flattenAux x key ++ flattenList rest key

def flattenEntries : List (String × ValueTree) → String → List FlatPair
  | [], _ => []
  | (k, v) :: rest, key =>
    flattenAux v (if key == "" then k else key ++ "." ++ k) ++ flattenEntries rest key
end

/-- `flatten` from `kie_evaluator.py`. -/
def flatten (t : ValueTree) : List FlatPair := flattenAux t ""

/-- Association-list lookup: Python `dict[key]` / `dict.get(key)` for
the first (unique, in Python) binding of `key`. -/
def alookup {α : Type} (k : String) : List (String × α) → Option α
  | [] => none
  | (k', v) :: rest => if k' = k then some v else alookup k rest

/-- Remove the first element equal to `x`: Python `list.remove(x)`
(total: removing from a list without `x` is the identity, a case the
scorer never reaches because it removes only after a membership test). -/
def eraseFirst {α : Type} [DecidableEq α] (x : α) : List α → List α
  | [] => []
  | y :: ys => if y = x then ys else y :: eraseFirst x ys

/-- Per-field accumulator `{"total_tp": _, "total_fn_or_fp": _}`. -/
structure FieldCounter where
  total_tp : Nat
  total_fn_or_fp : Nat
deriving DecidableEq

/-- `if field_name not in metric_info: metric_info[field_name] = {...}`:
first occurrence of a field appends a zeroed counter. -/
def ensureField (m : List (String × FieldCounter)) (name : String) :
    List (String × FieldCounter) :=
  if (alookup name m).isSome then m else m ++ [(name, ⟨0, 0⟩)]

/-- Update the (unique) counter bound to `name`. -/
def bumpField (f : FieldCounter → FieldCounter) (name : String) :
    List (String × FieldCounter) → List (String × FieldCounter)
  | [] => []
  | (k, c) :: rest =>
    if k = name then (k, f c) :: rest else (k, c) :: bumpField f name rest

def incTp (c : FieldCounter) : FieldCounter := ⟨c.total_tp + 1, c.total_fn_or_fp⟩

def incFnFp (c : FieldCounter) : FieldCounter := ⟨c.total_tp, c.total_fn_or_fp + 1⟩

/-- Result of the prediction-side matching loop of `cal_f1_all`:
updated per-field counters, the remaining ground-truth bag, the `tp`
and `fp` lists in iteration order, and the numbers of true and false
positives recorded. -/
structure ScanResult where
  metric : List (String × FieldCounter)
  remaining : List FlatPair
  tps : List FlatPair
  fps : List FlatPair
  tpc : Nat
  fpc : Nat

/-- The `for field in pred:` loop of `cal_f1_all`: greedy duplicate-aware
matching.  Each prediction pair found in the ground-truth bag is a true
positive and removes exactly one matching instance (`answer.remove`,
first occurrence); every other prediction pair is a false positive. -/
def scanPreds (m : List (String × FieldCounter)) (answer : List FlatPair) :
    List FlatPair → ScanResult
  | [] => ⟨m, answer, [], [], 0, 0⟩
  | fld :: rest =>
    let m1 := ensureField m fld.1
    if fld ∈ answer then
      let r := scanPreds (bumpField incTp fld.1 m1) (eraseFirst fld answer) rest
      ⟨r.metric, r.remaining, fld :: r.tps, r.fps, r.tpc + 1, r.fpc⟩
    else
      let r := scanPreds (bumpField incFnFp fld.1 m1) answer rest
      ⟨r.metric, r.remaining, r.tps, fld :: r.fps, r.tpc, r.fpc + 1⟩

/-- The `for field in answer:` false-negative loop of `cal_f1_all`. -/
def scanFns (m : List (String × FieldCounter)) :
    List FlatPair → List (String × FieldCounter)
  | [] => m
  | fld :: rest => scanFns (bumpField incFnFp fld.1 (ensureField m fld.1)) rest

/-- One step of `collections.Counter`: count an occurrence of `s`,
keeping keys in first-occurrence order as `dict(Counter(...))` does. -/
def counterAdd (acc : List (String × Nat)) (s : String) : List (String × Nat) :=
  if (alookup s acc).isSome then
    acc.map fun kv => if kv.1 = s then (kv.1, kv.2 + 1) else kv
  else acc ++ [(s, 1)]

/-- `dict(Counter(l))`: the histogram of a string list, keys in
first-occurrence order. -/
def pyCounter (l : List String) : List (String × Nat) := l.foldl counterAdd []

/-- The per-document error record `sample_error_info` as emitted into
`error_info` (it always carries `error_num` and `error_info` when
emitted). -/
structure DocErr where
  fp : List FlatPair
  fn : List FlatPair
  tp : List FlatPair
  error_num : Nat
  error_info : List (String × Nat)
deriving DecidableEq

/-- The mutable state threaded through the document loop of
`cal_f1_all`. -/
structure EvalState where
  metric : List (String × FieldCounter)
  errors : List (String × DocErr)
  total_tp : Nat
  total_fn_or_fp : Nat

/-- The body of `for file_name, answer in answers.items():` in
`cal_f1_all`: flatten both normalized trees, run the greedy matcher,
count remaining ground-truth pairs as false negatives, and emit a
per-document error record when any fp/fn occurred. -/
def processDoc (st : EvalState) (file_name : String)
    (predT answerT : ValueTree) : EvalState :=
  let P := flatten (normalize_dict predT)
  let G := flatten (normalize_dict answerT)
  let r := scanPreds st.metric G P
  let m2 := scanFns r.metric r.remaining
  let err_num := r.fps.length + r.remaining.length
  { metric := m2
    errors :=
      if 0 < err_num then
        st.errors ++ [(file_name,
          ⟨r.fps, r.remaining, r.tps, err_num,
            pyCounter ((r.remaining ++ r.fps).map fun p => "counter_" ++ p.1)⟩)]
      else st.errors
    total_tp := st.total_tp + r.tpc
    total_fn_or_fp := st.total_fn_or_fp + r.fpc + r.remaining.length }

/-- The document loop of `cal_f1_all`, driven by the ground-truth keys
only; a document without a prediction uses the empty dict
(`preds.get(file_name, {})`). -/
def scanDocs (preds answers : List (String × ValueTree)) : EvalState :=
  answers.foldl
    (fun st kv =>
      processDoc st kv.1
        (match alookup kv.1 preds with
         | some p => p
         | none => .vmap []) kv.2)
    ⟨[], [], 0, 0⟩

/-- The F1 / accuracy formula `tp / (tp + fn_or_fp / 2 + 1e-6)`, with
float arithmetic idealized as exact rationals. -/
def fScore (tp fnfp : Nat) : ℚ := (tp : ℚ) / ((tp : ℚ) + (fnfp : ℚ) / 2 + 1 / 1000000)

/-- A finished per-field entry of `metric_info` after the summary loop
adds `acc`. -/
structure FieldStats where
  total_tp : Nat
  total_fn_or_fp : Nat
  acc : ℚ

/-- Descending stable order by `error_num` (Python
`sorted(..., reverse=True)` is stable). -/
def errDesc (a b : String × DocErr) : Prop := b.2.error_num ≤ a.2.error_num

instance : DecidableRel errDesc := fun a b => by
  unfold errDesc; infer_instance

/-- Descending stable order by `total_fn_or_fp`. -/
def fieldDesc (a b : String × FieldStats) : Prop :=
  b.2.total_fn_or_fp ≤ a.2.total_fn_or_fp

instance : DecidableRel fieldDesc := fun a b => by
  unfold fieldDesc; infer_instance

/-- `cal_f1_all` from `kie_evaluator.py`: returns the global micro F1,
the per-field stats sorted descending by `total_fn_or_fp`, and the
per-document error map sorted descending by `error_num`. -/
def cal_f1_all (preds answers : List (String × ValueTree)) :
    ℚ × List (String × FieldStats) × List (String × DocErr) :=
  let st := scanDocs preds answers
  let metric := st.metric.map fun kv =>
    (kv.1, FieldStats.mk kv.2.total_tp kv.2.total_fn_or_fp
      (fScore kv.2.total_tp kv.2.total_fn_or_fp))
  (fScore st.total_tp st.total_fn_or_fp,
    List.insertionSort fieldDesc metric,
    List.insertionSort errDesc st.errors)

/-- The per-character body of the loop in `fullwidth_to_halfwidth`:
full-width space to space, full-width yen to half-width yen, em-dash to
hyphen, the degree-Celsius glyph to the two characters `°C`, and the
full-width ASCII block U+FF01..U+FF5E down by 0xFEE0. -/
def f2hChar (c : Char) : List Char :=
  if c.toNat = 0x3000 then [Char.ofNat 0x20]
  else if c.toNat = 0xFFE5 then [Char.ofNat 0xA5]
  else if c.toNat = 0x2014 then [Char.ofNat 0x2D]
  else if c.toNat = 0x2103 then [Char.ofNat 0xB0, 'C']
  else if 0xFF01 ≤ c.toNat && c.toNat ≤ 0xFF5E then [Char.ofNat (c.toNat - 0xFEE0)]
  else [c]

/-- The accumulation loop of `fullwidth_to_halfwidth`. -/
def f2hList : List Char → List Char
  | [] => []
  | c :: rest => f2hChar c ++ f2hList rest

/-- `fullwidth_to_halfwidth` from `kie_evaluator.py`.  The four
`str.replace` calls have single-character patterns, so they are
character maps (for replacement by another character) or filters (for
replacement by the empty string); `rstrip("。.")` drops the trailing run
over that two-character set. -/
def fullwidth_to_halfwidth (text : String) : String :=
  let r1 := f2hList text.data
  let r2 := r1.map fun c => if c = '、' then ',' else c
  let r3 := r2.filter fun c => !(c = '-')
  let r4 := r3.filter fun c => !(c = '–')
  let r5 := r4.map fun c => if c = '’' then Char.ofNat 0x27 else c
  String.mk (dropTrailing (fun c => c = '。' || c = '.') r5)

/-- Is `pat` a substring (Python `pat in text`)? -/
def hasSub (pat : List Char) : List Char → Bool
  | [] => pat.isEmpty
  | c :: rest => pat.isPrefixOf (c :: rest) || hasSub pat rest

/-- Index of the first occurrence of `pat` as a substring. -/
def findSub (pat : List Char) : List Char → Option Nat
  | [] => if pat.isEmpty then some 0 else none
  | c :: rest =>
    if pat.isPrefixOf (c :: rest) then some 0
    else (findSub pat rest).map (· + 1)

/-- `re.search(tag + r'\s*(.*?)\s*```', text, re.DOTALL)`, returning
`group(1)`:  at the leftmost position where `tag` matches and a closing
triple backtick follows, the greedy leading `\s*` consumes the maximal
whitespace run (backtick is not whitespace, so no backtracking occurs),
the non-greedy `(.*?)` stops at the earliest point from which a
whitespace run followed by a triple backtick starts, and the trailing
`\s*` keeps that whitespace run out of the group. -/
def fenceSearch (tag : List Char) : List Char → Option (List Char)
  | [] => none
  | c :: rest =>
    if tag.isPrefixOf (c :: rest) then
      let content0 := ((c :: rest).drop tag.length).dropWhile isPySpace
      match findSub ('`' :: '`' :: '`' :: []) content0 with
      | some m => some (dropTrailing isPySpace (content0.take m))
      | none => fenceSearch tag rest
    else fenceSearch tag rest

/-- `remove_unnecessary_spaces` from `kie_evaluator.py`: extract the
payload of a ```json or ``` fenced block when one is present (applying
the source's extra `.strip()` to the group), then delete every
whitespace character (`re.sub(r'\s+', '', text)`). -/
def remove_unnecessary_spaces (text : String) : String :=
  let cs := text.data
  let jsonTag := "```json".data
  let tickTag := "```".data
  let cs1 :=
    if hasSub jsonTag cs then
      match fenceSearch jsonTag cs with
      | some g => stripChars g
      | none => cs
    else if hasSub tickTag cs then
      match fenceSearch tickTag cs with
      | some g => stripChars g
      | none => cs
    else cs
  String.mk (cs1.filter fun c => !(isPySpace c))

/-- `normalize_func` from `evaluate_results.py`: full-width folding then
fence stripping and whitespace removal (its input is already a string,
so the `str(text)` coercion is the identity). -/
def normalize_func (text : String) : String :=
  remove_unnecessary_spaces (fullwidth_to_halfwidth text)

/-- `extract_image_name` from `evaluate_results.py`: strip a leading
`images/` prefix. -/
def extract_image_name (url : String) : String :=
  if "images/".data.isPrefixOf url.data then String.mk (url.data.drop 7) else url

/-- The summary block of one dataset's evaluation report (the fields of
`eval_result["summary"]` that `main` aggregates). -/
structure DatasetResult where
  f1_score : ℚ
  total_predictions : Nat
  total_ground_truth : Nat
  matched_samples : Nat

/-- The `_summary` record `main` emits when more than one dataset was
evaluated. -/
structure CrossSummary where
  num_datasets : Nat
  average_f1_score : ℚ
  total_predictions : Nat
  total_ground_truth : Nat
  total_matched_samples : Nat

/-- `total_f1 = sum(r["summary"]["f1_score"] for r in all_results.values())`. -/
def sumF1 (rs : List DatasetResult) : ℚ := (rs.map DatasetResult.f1_score).sum

/-- The `if len(all_results) > 1:` summary block of
`evaluate_results.main`: the cross-dataset summary divides the sum of
per-dataset F1 scores by the number of datasets and sums the document
counters; it is produced only when more than one dataset was
evaluated. -/
def crossSummary (rs : List DatasetResult) : Option CrossSummary :=
  if 1 < rs.length then
    some ⟨rs.length, sumF1 rs / (rs.length : ℚ),
      (rs.map DatasetResult.total_predictions).sum,
      (rs.map DatasetResult.total_ground_truth).sum,
      (rs.map DatasetResult.matched_samples).sum⟩
  else none

/-- One prediction record of the JSONL file after `json.loads`: the
fields `load_predictions` reads.  `dataset`/`url` are `none` when the
key is missing (`.get` with a default); `model_result` is any JSON
value or absent; `err` records the optional `error` field, whose
presence only triggers a warning. -/
structure RawRecord where
  dataset : Option String
  url : Option String
  model_result : Option ValueTree
  err : Option String

/-- Python's `in` operator applied to a JSON value, as in
`"_parse_error" in model_result`: key membership for dicts, element
equality for lists, substring for strings; on any other value it raises
`TypeError`, modelled as `none` (in `load_predictions` the surrounding
`except Exception` then skips the line). -/
def pyIn (s : String) : ValueTree → Option Bool
  | .vmap kvs => some (kvs.any fun kv => kv.1 = s)
  | .vlist xs =>
    some (xs.any fun x =>
      match x with
      | .scalar (.s str) => str = s
      | _ => false)
  | .scalar (.s str) => some (hasSub s.data str.data)
  | .scalar _ => none

/-- `predictions[dataset][image_name] = model_result` on an association
list: overwrite the first binding of the key in place, else append. -/
def setKey {α : Type} (k : String) (v : α) : List (String × α) → List (String × α)
  | [] => [(k, v)]
  | (k', v') :: rest =>
    if k' = k then (k, v) :: rest else (k', v') :: setKey k v rest

/-- The grouped predictions map `{dataset → {image_name → tree}}`. -/
abbrev PredMap := List (String × List (String × ValueTree))

/-- Insert a prediction into the nested `defaultdict(dict)`. -/
def insertPred (preds : PredMap) (dataset image_name : String)
    (mr : ValueTree) : PredMap :=
  match alookup dataset preds with
  | some inner => setKey dataset (setKey image_name mr inner) preds
  | none => preds ++ [(dataset, [(image_name, mr)])]

/-- The per-line body of `load_predictions` (after `json.loads`
succeeded): skip when `url` is missing or empty; warn only on an
`error` field; skip when `model_result` is absent; skip when
`"_parse_error" in model_result` is true or raises (the raise is caught
by the loop's `except Exception`); otherwise store the result under the
url stripped of a leading `images/`. -/
def processRecord (preds : PredMap) (data : RawRecord) : PredMap :=
  let url := data.url.getD ""
  if url = "" then preds
  else
    let image_name := extract_image_name url
    match data.model_result with
    | none => preds
    | some mr =>
      match pyIn "_parse_error" mr with
      | none => preds
      | some true => preds
      | some false => insertPred preds (data.dataset.getD "unknown") image_name mr

/-- `load_predictions` over the parsed lines of the JSONL file: `none`
stands for a blank or unparsable line (skipped by the
`json.JSONDecodeError` handler). -/
def load_predictions (lines : List (Option RawRecord)) : PredMap :=
  lines.foldl
    (fun preds l =>
      match l with
      | none => preds
      | some d => processRecord preds d) []

mutual
/-- Every scalar leaf of the tree has a non-empty stripped string
rendering (`str(x).strip() != ""`). -/
def goodB : ValueTree → Bool
  | .scalar sc => !(pyStrip (pyStr sc) == "")
  | .vlist xs => goodListB xs
  | .vmap kvs => goodEntriesB kvs

def goodListB : List ValueTree → Bool
  | [] => true
  | x :: rest => goodB x && goodListB rest

def goodEntriesB : List (String × ValueTree) → Bool
  | [] => true
  | (_, v) :: rest => goodB v && goodEntriesB rest
end

/-- A canonical string leaf: a non-empty string scalar fixed by
stripping. -/
def goodStrB : ValueTree → Bool
  | .scalar (.s v) => pyStrip v == v && !(v == "")
  | _ => false

/-- Adjacent entries are in ascending `(len(key), key)` order. -/
def keysSortedB : List (String × ValueTree) → Bool
  | [] => true
  | [_] => true
  | a :: b :: rest => pyKeyLe a.1 b.1 && keysSortedB (b :: rest)

mutual
/-- A canonical dict: keys sorted, every value a canonical non-empty
list. -/
def canonMapB : ValueTree → Bool
  | .vmap kvs => keysSortedB kvs && canonEntriesB kvs
  | _ => false

def canonEntriesB : List (String × ValueTree) → Bool
  | [] => true
  | (_, v) :: rest => canonValB v && canonEntriesB rest

/-- A canonical dict value: a non-empty canonical list. -/
def canonValB : ValueTree → Bool
  | .vlist xs => !xs.isEmpty && canonElemsB xs
  | _ => false

/-- Canonical list elements: either all (truthy) canonical dicts, or —
when some element is not a dict — all canonical string leaves. -/
def canonElemsB (xs : List ValueTree) : Bool :=
  if allDictsB xs then canonMapsB xs else xs.all goodStrB

def canonMapsB : List ValueTree → Bool
  | [] => true
  | x :: rest => (vtTruthy x && canonMapB x) && canonMapsB rest
end

/-- A possible output of `normalize_dict`: a canonical list (for scalar
and list inputs) or a canonical dict (for dict inputs). -/
def canonTopB : ValueTree → Bool
  | .scalar _ => false
  | .vlist xs => canonElemsB xs
  | .vmap kvs => keysSortedB kvs && canonEntriesB kvs

/-- Characters that the text normalizer can neither turn into
whitespace nor into a backtick: not whitespace, not a backtick, not a
full-width space (U+3000) and not a full-width grave accent (U+FF40). -/
def plainCharB (c : Char) : Bool :=
  !(isPySpace c) && !(c = '`') && !(c.toNat = 0x3000) && !(c.toNat = 0xFF40)

/-- Scenario C's prediction map: `{"doc": {"items": ["a"]}}`. -/
def scenCPreds : List (String × ValueTree) :=
  [("doc", .vmap [("items", .vlist [.scalar (.s "a")])])]

/-- Scenario C's ground-truth map: `{"doc": {"items": ["a", "a"]}}`. -/
def scenCAnswers : List (String × ValueTree) :=
  [("doc", .vmap [("items", .vlist [.scalar (.s "a"), .scalar (.s "a")])])]

/-- A ground truth that normalizes to empty alongside a non-empty
prediction: `gt={"d": {}}`, `pred={"d": {"a": "x"}}`. -/
def emptyGtAnswers : List (String × ValueTree) := [("d", .vmap [])]

def emptyGtPreds : List (String × ValueTree) :=
  [("d", .vmap [("a", .scalar (.s "x"))])]

/-- Number of occurrences of `x` in a list (used to state the
one-for-one removal property of the matcher). -/
def countOcc {α : Type} [DecidableEq α] (x : α) : List α → Nat
  | [] => 0
  | y :: ys => (if y = x then 1 else 0) + countOcc x ys

theorem vt_ind {P : ValueTree → Prop}
    (hs : ∀ sc, P (.scalar sc))
    (hl : ∀ xs, (∀ x ∈ xs, P x) → P (.vlist xs))
    (hm : ∀ kvs, (∀ kv ∈ kvs, P kv.2) → P (.vmap kvs)) :
    ∀ t, P t :=
  @ValueTree.rec P (fun xs => ∀ x ∈ xs, P x) (fun kvs => ∀ kv ∈ kvs, P kv.2)
    (fun kv => P kv.2)
    hs hl hm
    (fun x hx => absurd hx (List.not_mem_nil x))
    (fun _ _ ihh iht x hx => by
      rcases List.mem_cons.mp hx with h | h
      · exact h ▸ ihh
      · exact iht x h)
    (fun kv hkv => absurd hkv (List.not_mem_nil kv))
    (fun _ _ ihh iht kv hkv => by
      rcases List.mem_cons.mp hkv with h | h
      · exact h ▸ ihh
      · exact iht kv h)
    (fun _ _ ih => ih)

theorem dropTrailing_idem (p : Char → Bool) (l : List Char) :
    dropTrailing p (dropTrailing p l) = dropTrailing p l := by
  induction l with
  | nil => rfl
  | cons c rest ih =>
    by_cases h : (dropTrailing p rest).isEmpty && p c
    · simp [dropTrailing, h]
    · simp only [dropTrailing, if_neg h]
      simp only [dropTrailing, ih, if_neg h]

theorem dropTrailing_sub {p : Char → Bool} {l : List Char} {x : Char}
    (hx : x ∈ dropTrailing p l) : x ∈ l := by
  induction l with
  | nil => exact absurd hx (List.not_mem_nil x)
  | cons c rest ih =>
    by_cases h : (dropTrailing p rest).isEmpty && p c
    · simp [dropTrailing, h] at hx
    · simp only [dropTrailing, if_neg h, List.mem_cons] at hx
      rcases hx with h' | h'
      · exact h' ▸ List.mem_cons_self c rest
      · exact List.mem_cons_of_mem c (ih h')

theorem dropTrailing_cons_of_head {p : Char → Bool} {c : Char} (l : List Char)
    (h : p c = false) : dropTrailing p (c :: l) = c :: dropTrailing p l := by
  simp [dropTrailing, h]

theorem dropWhile_eq_self_of_head {p : Char → Bool} {c : Char} {l : List Char}
    (h : p c = false) : List.dropWhile p (c :: l) = c :: l := by
  simp [List.dropWhile, h]

theorem stripChars_idem (cs : List Char) :
    stripChars (stripChars cs) = stripChars cs := by
  unfold stripChars
  rcases hA : cs.dropWhile isPySpace with _ | ⟨a, arest⟩
  · rfl
  · have hpa : isPySpace a = false := by
      by_contra hcon
      have hpa' : isPySpace a = true := by
        revert hcon; cases isPySpace a <;> simp
      have h1 : List.dropWhile isPySpace (cs.dropWhile isPySpace)
          = cs.dropWhile isPySpace := List.dropWhile_idempotent _ _
      rw [hA, List.dropWhile_cons, if_pos hpa'] at h1
      have h2 := (List.dropWhile_sublist (l := arest) (p := isPySpace)).length_le
      rw [h1] at h2
      simp at h2
    have hcons : dropTrailing isPySpace (a :: arest)
        = a :: dropTrailing isPySpace arest := dropTrailing_cons_of_head arest hpa
    rw [hcons, dropWhile_eq_self_of_head hpa, ← hcons, dropTrailing_idem]

theorem pyStrip_idem (s : String) : pyStrip (pyStrip s) = pyStrip s := by
  unfold pyStrip
  rw [show (String.mk (stripChars s.data)).data = stripChars s.data from rfl]
  rw [stripChars_idem]

/-- Claim C3, counterexample: the structure normalizer is not idempotent
on every tree.  For the scalar `""`, `normalize_dict("")` is `[""]`
(the scalar branch does not filter empty strings), but renormalizing
`[""]` takes the scalar-list branch, which drops the empty string,
giving `[]`. -/
theorem claim3_counterexample :
    normalize_dict (normalize_dict (.scalar (.s "")))
      ≠ normalize_dict (.scalar (.s "")) := by
  intro h
  have h1 : normalize_dict (ValueTree.scalar (.s "")) = .vlist [.scalar (.s "")] := rfl
  have h2 : normalize_dict (.vlist [.scalar (.s "")]) = .vlist [] := rfl
  rw [h1, h2] at h
  injection h with h'
  exact List.noConfusion h'

/-- Claim C4, counterexample: `normalize_func` is not idempotent.  On
`"a. "` the first pass keeps the trailing period (the `rstrip("。.")` in
`fullwidth_to_halfwidth` sees the trailing space, not the period) and
then deletes the space, yielding `"a."`; the second pass strips the now
trailing period, yielding `"a"`. -/
theorem claim4_counterexample :
    normalize_func (normalize_func "a. ") ≠ normalize_func "a. " := by
  decide

/-- Claim C8: with more than one dataset, the reported
`average_f1_score` is the arithmetic mean of the per-dataset F1 scores
(the sum divided by the number of datasets), independent of each
dataset's document counts; in particular per-dataset scores 1.0 and 0.0
average to 0.5 for arbitrary document counts. -/
theorem claim8_average :
    (∀ rs s, crossSummary rs = some s →
      s.num_datasets = rs.length
        ∧ s.average_f1_score = sumF1 rs / (rs.length : ℚ))
    ∧ ∀ r1 r2 : DatasetResult, r1.f1_score = 1 → r2.f1_score = 0 →
        (crossSummary [r1, r2]).map CrossSummary.average_f1_score = some (1 / 2) := by
  constructor
  · intro rs s h
    unfold crossSummary at h
    by_cases hl : 1 < rs.length
    · rw [if_pos hl] at h
      cases h
      exact ⟨rfl, rfl⟩
    · rw [if_neg hl] at h
      exact absurd h (by simp)
  · intro r1 r2 h1 h2
    have : sumF1 [r1, r2] = 1 := by
      unfold sumF1
      simp [h1, h2]
    simp [crossSummary, this]

theorem claim8_average_witness :
    (crossSummary [⟨1, 10, 10, 10⟩, ⟨0, 1000, 1000, 1000⟩]).map
        CrossSummary.average_f1_score = some (1 / 2) :=
  claim8_average.2 ⟨1, 10, 10, 10⟩ ⟨0, 1000, 1000, 1000⟩ rfl rfl

theorem keepScalars_cons_scalar (sc : PyScalar) (rest : List ValueTree) :
    keepScalars (.scalar sc :: rest) =
      if scalarTyOk sc && !(pyStrip (pyStr sc) == "") then
        .scalar (.s (pyStrip (pyStr sc))) :: keepScalars rest
      else keepScalars rest := rfl

theorem keepScalars_cons_vlist (ys : List ValueTree) (rest : List ValueTree) :
    keepScalars (.vlist ys :: rest) = keepScalars rest := rfl

theorem keepScalars_cons_vmap (kvs : List (String × ValueTree))
    (rest : List ValueTree) :
    keepScalars (.vmap kvs :: rest) = keepScalars rest := rfl

theorem keepScalars_drop_dicts (xs : List ValueTree) :
    keepScalars (xs.filter fun x => !(isDictB x)) = keepScalars xs := by
  induction xs with
  | nil => rfl
  | cons x rest ih =>
    cases x with
    | scalar sc =>
      rw [List.filter_cons_of_pos (by rfl), keepScalars_cons_scalar,
        keepScalars_cons_scalar, ih]
    | vlist ys =>
      rw [List.filter_cons_of_pos (by rfl), keepScalars_cons_vlist,
        keepScalars_cons_vlist]
      exact ih
    | vmap kvs =>
      rw [List.filter_cons_of_neg (by simp [isDictB]), keepScalars_cons_vmap]
      exact ih

theorem keepScalars_shape (xs : List ValueTree) :
    ∀ y ∈ keepScalars xs, ∃ v, y = .scalar (.s v) ∧ pyStrip v = v ∧ v ≠ "" := by
  induction xs with
  | nil => intro y hy; exact absurd hy (List.not_mem_nil y)
  | cons x rest ih =>
    intro y hy
    cases x with
    | scalar sc =>
      rw [keepScalars_cons_scalar] at hy
      by_cases hcond : (scalarTyOk sc && !(pyStrip (pyStr sc) == "")) = true
      · rw [if_pos hcond] at hy
        rcases List.mem_cons.mp hy with h | h
        · refine ⟨pyStrip (pyStr sc), h, pyStrip_idem _, ?_⟩
          intro hemp
          rw [Bool.and_eq_true] at hcond
          rw [hemp] at hcond
          simp at hcond
        · exact ih y h
      · rw [if_neg hcond] at hy
        exact ih y hy
    | vlist ys => rw [keepScalars_cons_vlist] at hy; exact ih y hy
    | vmap kvs => rw [keepScalars_cons_vmap] at hy; exact ih y hy

/-- Claim C5: a list mixing dict and scalar elements is normalized by
the scalar-list branch: the result is `keepScalars xs`, the dict
elements contribute nothing (filtering them away first changes
nothing), and every surviving element is a trimmed non-empty string
scalar. -/
theorem claim5_mixed_list :
    ∀ xs : List ValueTree, xs.any isDictB = true → xs.any isScalarB = true →
      normalize_dict (.vlist xs) = .vlist (keepScalars xs)
        ∧ keepScalars (xs.filter fun x => !(isDictB x)) = keepScalars xs
        ∧ ∀ y ∈ keepScalars xs, ∃ v, y = .scalar (.s v) ∧ pyStrip v = v ∧ v ≠ "" := by
  intro xs _ hscalar
  have hallf : allDictsB xs = false := by
    rcases List.any_eq_true.mp hscalar with ⟨x, hx, hxscalar⟩
    rcases x with sc | ys | kvs
    · rw [allDictsB]
      by_contra hcon
      have hall : xs.all isDictB = true := by
        revert hcon; cases xs.all isDictB <;> simp
      have := List.all_eq_true.mp hall _ hx
      exact Bool.noConfusion this
    · exact Bool.noConfusion hxscalar
    · exact Bool.noConfusion hxscalar
  refine ⟨?_, keepScalars_drop_dicts xs, keepScalars_shape xs⟩
  rw [normalize_dict]
  rw [if_neg (by rw [hallf]; exact fun hc => Bool.noConfusion hc)]

theorem claim5_mixed_list_witness :
    normalize_dict (.vlist [.vmap [("k", .scalar (.s "v"))], .scalar (.s " a ")])
      = .vlist (keepScalars [.vmap [("k", .scalar (.s "v"))], .scalar (.s " a ")]) :=
  (claim5_mixed_list [.vmap [("k", .scalar (.s "v"))], .scalar (.s " a ")]
    (by decide) (by decide)).1

theorem scanPreds_nil_answer (m : List (String × FieldCounter)) (P : List FlatPair) :
    (scanPreds m [] P).tpc = 0 ∧ (scanPreds m [] P).fpc = P.length
      ∧ (scanPreds m [] P).remaining = [] ∧ (scanPreds m [] P).fps = P
      ∧ (scanPreds m [] P).tps = [] := by
  induction P generalizing m with
  | nil => exact ⟨rfl, rfl, rfl, rfl, rfl⟩
  | cons fld rest ih =>
    have hmem : fld ∉ ([] : List FlatPair) := List.not_mem_nil fld
    rcases ih (bumpField incFnFp fld.1 (ensureField m fld.1)) with ⟨h1, h2, h3, h4, h5⟩
    simp only [scanPreds, if_neg hmem]
    exact ⟨h1, by rw [h2, List.length_cons], h3, by rw [h4], h5⟩

/-- Claim C2, counterexample: a document whose ground truth normalizes
to empty does not contribute zero to every counter regardless of the
prediction — with `gt={"d": {}}` and `pred={"d": {"a": "x"}}` the
prediction field is counted as a false positive. -/
theorem claim2_counterexample :
    (scanDocs emptyGtPreds emptyGtAnswers).total_fn_or_fp = 1
      ∧ (scanDocs emptyGtPreds emptyGtAnswers).total_tp = 0 := by
  decide

theorem eraseFirst_length {α : Type} [DecidableEq α] {x : α} :
    ∀ {l : List α}, x ∈ l → (eraseFirst x l).length + 1 = l.length := by
  intro l h
  induction l with
  | nil => exact absurd h (List.not_mem_nil x)
  | cons y ys ih =>
    by_cases hyx : y = x
    · rw [eraseFirst, if_pos hyx, List.length_cons]
    · rw [eraseFirst, if_neg hyx, List.length_cons, List.length_cons]
      rcases List.mem_cons.mp h with h' | h'
      · exact absurd h'.symm hyx
      · rw [← ih h']

theorem eraseFirst_countOcc_self {α : Type} [DecidableEq α] {x : α} :
    ∀ {l : List α}, x ∈ l → countOcc x (eraseFirst x l) + 1 = countOcc x l := by
  intro l h
  induction l with
  | nil => exact absurd h (List.not_mem_nil x)
  | cons y ys ih =>
    by_cases hyx : y = x
    · rw [eraseFirst, if_pos hyx, countOcc, if_pos hyx]
      omega
    · rw [eraseFirst, if_neg hyx, countOcc, countOcc, if_neg hyx]
      rcases List.mem_cons.mp h with h' | h'
      · exact absurd h'.symm hyx
      · have := ih h'
        omega

theorem eraseFirst_countOcc_other {α : Type} [DecidableEq α] (x y : α)
    (h : y ≠ x) : ∀ l : List α, countOcc y (eraseFirst x l) = countOcc y l := by
  intro l
  induction l with
  | nil => rfl
  | cons z zs ih =>
    by_cases hzx : z = x
    · rw [eraseFirst, if_pos hzx, countOcc, hzx, if_neg (fun h' => h h'.symm)]
      omega
    · rw [eraseFirst, if_neg hzx, countOcc, countOcc, ih]

theorem eraseFirst_countOcc_le {α : Type} [DecidableEq α] (x y : α)
    (l : List α) : countOcc y (eraseFirst x l) ≤ countOcc y l := by
  by_cases hx : x ∈ l
  · by_cases hyx : y = x
    · subst hyx
      have := eraseFirst_countOcc_self (x := y) hx
      omega
    · rw [eraseFirst_countOcc_other x y hyx l]
  · have : eraseFirst x l = l := by
      induction l with
      | nil => rfl
      | cons z zs ih =>
        have hzx : ¬ z = x := fun h => hx (by rw [← h]; exact List.mem_cons_self z zs)
        rw [eraseFirst, if_neg hzx,
          ih (fun h => hx (List.mem_cons_of_mem z h))]
    rw [this]

theorem scanPreds_spec (P : List FlatPair) :
    ∀ (m : List (String × FieldCounter)) (G : List FlatPair),
      (scanPreds m G P).tpc + (scanPreds m G P).fpc = P.length
        ∧ (scanPreds m G P).tpc + (scanPreds m G P).remaining.length = G.length
        ∧ (scanPreds m G P).tps.length = (scanPreds m G P).tpc
        ∧ (scanPreds m G P).fps.length = (scanPreds m G P).fpc
        ∧ ∀ x, countOcc x (scanPreds m G P).remaining ≤ countOcc x G := by
  induction P with
  | nil =>
    intro m G
    exact ⟨rfl, by simp [scanPreds], rfl, rfl, fun x => Nat.le_refl _⟩
  | cons fld rest ih =>
    intro m G
    by_cases hmem : fld ∈ G
    · rcases ih (bumpField incTp fld.1 (ensureField m fld.1)) (eraseFirst fld G) with
        ⟨h1, h2, h3, h4, h5⟩
      have hlen := eraseFirst_length hmem
      simp only [scanPreds, if_pos hmem, List.length_cons]
      refine ⟨by omega, by omega, by omega, h4, ?_⟩
      intro x
      exact Nat.le_trans (h5 x) (eraseFirst_countOcc_le fld x G)
    · rcases ih (bumpField incFnFp fld.1 (ensureField m fld.1)) G with
        ⟨h1, h2, h3, h4, h5⟩
      simp only [scanPreds, if_neg hmem, List.length_cons]
      exact ⟨by omega, h2, h3, by omega, h5⟩

/-- Claim C1: greedy duplicate-aware matching.  `eraseFirst` (Python's
`list.remove`) removes exactly one matching instance (one occurrence of
the matched pair, no other pair affected); over a whole prediction list
every pair becomes either a true or a false positive
(`tpc + fpc = |P|`), each true positive consumes exactly one
ground-truth instance (`tpc + |remaining| = |G|`, occurrence counts
never increase), and on Scenario C (`gt={"items": ["a", "a"]}`,
`pred={"items": ["a"]}`) the result is exactly 1 TP and 1 FN. -/
theorem claim1_greedy_matching :
    (∀ (x : FlatPair) (G : List FlatPair), x ∈ G →
      (eraseFirst x G).length + 1 = G.length
        ∧ countOcc x (eraseFirst x G) + 1 = countOcc x G
        ∧ ∀ y, y ≠ x → countOcc y (eraseFirst x G) = countOcc y G)
    ∧ (∀ (m : List (String × FieldCounter)) (G P : List FlatPair),
        (scanPreds m G P).tpc + (scanPreds m G P).fpc = P.length
          ∧ (scanPreds m G P).tpc + (scanPreds m G P).remaining.length = G.length
          ∧ ∀ x, countOcc x (scanPreds m G P).remaining ≤ countOcc x G)
    ∧ ((scanDocs scenCPreds scenCAnswers).total_tp = 1
        ∧ (scanDocs scenCPreds scenCAnswers).total_fn_or_fp = 1
        ∧ (scanDocs scenCPreds scenCAnswers).errors.map
              (fun e => (e.1, e.2.tp, e.2.fp, e.2.fn))
            = [("doc", [("items", .s "a")], [], [("items", .s "a")])]) := by
  refine ⟨?_, ?_, ?_⟩
  · intro x G hx
    exact ⟨eraseFirst_length hx, eraseFirst_countOcc_self hx,
      fun y hy => eraseFirst_countOcc_other x y hy G⟩
  · intro m G P
    rcases scanPreds_spec P m G with ⟨h1, h2, _, _, h5⟩
    exact ⟨h1, h2, h5⟩
  · exact ⟨by decide, by decide, by decide⟩

theorem claim1_greedy_matching_witness :
    (eraseFirst (("items", .s "a") : FlatPair)
        [("items", .s "a"), ("items", .s "a")]).length + 1 = 2 :=
  (claim1_greedy_matching.1 ("items", .s "a")
    [("items", .s "a"), ("items", .s "a")] (by decide)).1

theorem fScore_nonneg (tp fnfp : Nat) : 0 ≤ fScore tp fnfp := by
  unfold fScore
  positivity

theorem fScore_le_one (tp fnfp : Nat) : fScore tp fnfp ≤ 1 := by
  unfold fScore
  rw [div_le_one (by positivity)]
  have h : (0 : ℚ) ≤ (fnfp : ℚ) / 2 := by positivity
  linarith

/-- Claim C7: the global score returned by `cal_f1_all` is
`total_tp / (total_tp + total_fn_or_fp / 2 + 1e-6)` over the
accumulated counters, every per-field `acc` is the same formula over
that field's counters, and the global score always lies in `[0, 1]`
(with the ε = 1e-6 smoothing, also for empty ground truth). -/
theorem claim7_f1_formula_bounds :
    ∀ preds answers : List (String × ValueTree),
      (cal_f1_all preds answers).1
          = ((scanDocs preds answers).total_tp : ℚ) /
              (((scanDocs preds answers).total_tp : ℚ)
                + ((scanDocs preds answers).total_fn_or_fp : ℚ) / 2 + 1 / 1000000)
        ∧ (∀ e ∈ (cal_f1_all preds answers).2.1,
            e.2.acc = (e.2.total_tp : ℚ) /
              ((e.2.total_tp : ℚ) + (e.2.total_fn_or_fp : ℚ) / 2 + 1 / 1000000))
        ∧ 0 ≤ (cal_f1_all preds answers).1
        ∧ (cal_f1_all preds answers).1 ≤ 1 := by
  intro preds answers
  refine ⟨rfl, ?_, fScore_nonneg _ _, fScore_le_one _ _⟩
  intro e he
  have hmem : e ∈ (scanDocs preds answers).metric.map fun kv =>
      (kv.1, FieldStats.mk kv.2.total_tp kv.2.total_fn_or_fp
        (fScore kv.2.total_tp kv.2.total_fn_or_fp)) :=
    (List.perm_insertionSort fieldDesc _).mem_iff.mp he
  rcases List.mem_map.mp hmem with ⟨kv, _, hkv⟩
  rw [← hkv]
  rfl

theorem claim7_f1_formula_bounds_witness :
    0 ≤ (cal_f1_all emptyGtPreds emptyGtAnswers).1
      ∧ (cal_f1_all emptyGtPreds emptyGtAnswers).1 ≤ 1 :=
  ⟨(claim7_f1_formula_bounds emptyGtPreds emptyGtAnswers).2.2.1,
    (claim7_f1_formula_bounds emptyGtPreds emptyGtAnswers).2.2.2⟩



theorem alookup_bump_self (x : String) :
    ∀ acc : List (String × Nat),
      alookup x (acc.map fun kv => if kv.1 = x then (kv.1, kv.2 + 1) else kv)
        = (alookup x acc).map (· + 1) := by
  intro acc
  induction acc with
  | nil => rfl
  | cons kv rest ih =>
    obtain ⟨k0, v0⟩ := kv
    simp only [List.map_cons]
    by_cases hk : k0 = x
    · rw [if_pos hk, alookup, if_pos hk, alookup, if_pos hk]
      rfl
    · rw [if_neg hk, alookup, if_neg hk, alookup, if_neg hk, ih]

theorem alookup_bump_other {x s : String} (h : s ≠ x) :
    ∀ acc : List (String × Nat),
      alookup s (acc.map fun kv => if kv.1 = x then (kv.1, kv.2 + 1) else kv)
        = alookup s acc := by
  intro acc
  induction acc with
  | nil => rfl
  | cons kv rest ih =>
    obtain ⟨k0, v0⟩ := kv
    simp only [List.map_cons]
    by_cases hk : k0 = x
    · have hks : ¬ k0 = s := fun h' => h (h' ▸ hk)
      rw [if_pos hk, alookup, if_neg hks, alookup, if_neg hks, ih]
    · rw [if_neg hk, alookup, alookup, ih]

theorem alookup_append {α : Type} (k : String) (l1 l2 : List (String × α)) :
    alookup k (l1 ++ l2)
      = match alookup k l1 with
        | some v => some v
        | none => alookup k l2 := by
  induction l1 with
  | nil => rfl
  | cons kv rest ih =>
    obtain ⟨k0, v0⟩ := kv
    rw [List.cons_append, alookup, alookup]
    by_cases hk : k0 = k
    · rw [if_pos hk, if_pos hk]
    · rw [if_neg hk, if_neg hk, ih]

theorem alookup_counterAdd_self {acc : List (String × Nat)} {x : String} :
    alookup x (counterAdd acc x) = some ((alookup x acc).getD 0 + 1) := by
  unfold counterAdd
  by_cases hx : (alookup x acc).isSome
  · rw [if_pos hx, alookup_bump_self]
    rcases Option.isSome_iff_exists.mp hx with ⟨n, hn⟩
    rw [hn]
    rfl
  · have hnone : alookup x acc = none := by
      rcases h : alookup x acc with _ | n
      · rfl
      · rw [h] at hx; simp at hx
    rw [if_neg hx, alookup_append, hnone]
    simp [alookup]

theorem alookup_counterAdd_other {acc : List (String × Nat)} {x s : String}
    (h : s ≠ x) : alookup s (counterAdd acc x) = alookup s acc := by
  unfold counterAdd
  by_cases hx : (alookup x acc).isSome
  · rw [if_pos hx, alookup_bump_other h]
  · rw [if_neg hx, alookup_append]
    rcases hs : alookup s acc with _ | v
    · rw [alookup, if_neg (fun hh : x = s => h hh.symm), alookup]
    · rfl

theorem counter_fold (l : List String) :
    ∀ (acc : List (String × Nat)) (s : String),
      alookup s (List.foldl counterAdd acc l)
        = match alookup s acc with
          | some n => some (n + countOcc s l)
          | none => if countOcc s l = 0 then none else some (countOcc s l) := by
  induction l with
  | nil =>
    intro acc s
    rcases h : alookup s acc with _ | n
    · simp [h, countOcc]
    · simp [h, countOcc]
  | cons x xs ih =>
    intro acc s
    rw [List.foldl_cons, ih]
    by_cases hsx : s = x
    · subst hsx
      rw [alookup_counterAdd_self]
      have hc : countOcc s (s :: xs) = countOcc s xs + 1 := by
        rw [countOcc, if_pos rfl]; omega
      rcases h : alookup s acc with _ | n
      · rw [hc]
        show some (0 + 1 + countOcc s xs)
          = if countOcc s xs + 1 = 0 then none else some (countOcc s xs + 1)
        rw [if_neg (by omega)]
        exact congrArg some (by omega)
      · rw [hc]
        show some (n + 1 + countOcc s xs) = some (n + (countOcc s xs + 1))
        exact congrArg some (by omega)
    · rw [alookup_counterAdd_other hsx]
      have hc : countOcc s (x :: xs) = countOcc s xs := by
        rw [countOcc, if_neg (fun h' => hsx h'.symm)]
        omega
      rw [hc]

theorem pyCounter_spec (l : List String) (s : String) :
    alookup s (pyCounter l)
      = if countOcc s l = 0 then none else some (countOcc s l) := by
  have h := counter_fold l [] s
  rw [pyCounter]
  exact h

theorem countOcc_map_cat (path : String) (l : List String) :
    countOcc ("counter_" ++ path) (l.map fun s => "counter_" ++ s)
      = countOcc path l := by
  induction l with
  | nil => rfl
  | cons x xs ih =>
    rw [List.map_cons, countOcc, countOcc, ih]
    congr 1
    by_cases h : x = path
    · rw [if_pos (by rw [h]), if_pos h]
    · rw [if_neg h, if_neg (fun hc => h ?_)]
      have h2 := congrArg String.data hc
      rw [String.data_append, String.data_append] at h2
      exact String.ext (List.append_cancel_left h2)

theorem countOcc_map_catPair (path : String) (l : List FlatPair) :
    countOcc ("counter_" ++ path) (l.map fun p => "counter_" ++ p.1)
      = countOcc path (l.map Prod.fst) := by
  induction l with
  | nil => rfl
  | cons p ps ih =>
    rw [List.map_cons, countOcc, List.map_cons, countOcc, ih]
    congr 1
    by_cases h : p.1 = path
    · rw [if_pos (by rw [h]), if_pos h]
    · rw [if_neg h, if_neg (fun hc => h ?_)]
      have h2 := congrArg String.data hc
      rw [String.data_append, String.data_append] at h2
      exact String.ext (List.append_cancel_left h2)

/-- Claim C9 (amended): a `DocumentErrorRecord` is appended for a
document iff it has at least one fp or fn entry; the emitted record has
`error_num = |fp| + |fn|`, and its `error_info` is the histogram of the
field paths occurring across fn ++ fp — keyed, however, by
`"counter_" + path` rather than by the bare field path. -/
theorem claim9_error_records :
    ∀ (st : EvalState) (fname : String) (predT answerT : ValueTree),
      ((processDoc st fname predT answerT).errors = st.errors
          ↔ (scanPreds st.metric (flatten (normalize_dict answerT))
                (flatten (normalize_dict predT))).fps.length
              + (scanPreds st.metric (flatten (normalize_dict answerT))
                (flatten (normalize_dict predT))).remaining.length = 0)
        ∧ ∀ rec : DocErr,
            (processDoc st fname predT answerT).errors
                = st.errors ++ [(fname, rec)] →
            rec.error_num = rec.fp.length + rec.fn.length
              ∧ ∀ path : String,
                  alookup ("counter_" ++ path) rec.error_info
                    = if countOcc path ((rec.fn ++ rec.fp).map Prod.fst) = 0
                      then none
                      else some (countOcc path ((rec.fn ++ rec.fp).map Prod.fst)) := by
  intro st fname predT answerT
  simp only [processDoc]
  set R := scanPreds st.metric (flatten (normalize_dict answerT))
    (flatten (normalize_dict predT)) with hR
  by_cases hn : 0 < R.fps.length + R.remaining.length
  · rw [if_pos hn]
    constructor
    · constructor
      · intro h
        have := congrArg List.length h
        rw [List.length_append, List.length_cons, List.length_nil] at this
        omega
      · intro h
        omega
    · intro rec h
      have hrec := List.append_cancel_left h
      have hrecEq : rec = ⟨R.fps, R.remaining, R.tps,
          R.fps.length + R.remaining.length,
          pyCounter ((R.remaining ++ R.fps).map fun p => "counter_" ++ p.1)⟩ := by
        injection hrec with h1 _
        injection h1 with _ h2
        exact h2.symm
      subst hrecEq
      refine ⟨rfl, ?_⟩
      intro path
      show alookup ("counter_" ++ path)
          (pyCounter ((R.remaining ++ R.fps).map fun p => "counter_" ++ p.1))
        = if countOcc path ((R.remaining ++ R.fps).map Prod.fst) = 0 then none
          else some (countOcc path ((R.remaining ++ R.fps).map Prod.fst))
      rw [pyCounter_spec, countOcc_map_catPair]
  · rw [if_neg hn]
    constructor
    · exact iff_of_true rfl (by omega)
    · intro rec h
      have := congrArg List.length h
      rw [List.length_append, List.length_cons, List.length_nil] at this
      omega

/-- Claim C9, counterexample: `error_info` does not map the field path
itself to its occurrence count.  In Scenario C the document's error
record counts the path `items` once among fn ∪ fp, yet looking up
`"items"` in `error_info` fails — the histogram key is
`"counter_items"`. -/
theorem claim9_counterexample :
    (scanDocs scenCPreds scenCAnswers).errors.map
        (fun e => alookup "items" e.2.error_info) = [none]
      ∧ (scanDocs scenCPreds scenCAnswers).errors.map
          (fun e => alookup "counter_items" e.2.error_info) = [some 1]
      ∧ (scanDocs scenCPreds scenCAnswers).errors.map
          (fun e => countOcc "items" ((e.2.fn ++ e.2.fp).map Prod.fst)) = [1] := by
  refine ⟨by decide, by decide, by decide⟩

theorem claim9_error_records_witness :
    (⟨[], [("items", (.s "a" : PyScalar))], [("items", .s "a")], 1,
        [("counter_items", 1)]⟩ : DocErr).error_num
      = (⟨[], [("items", (.s "a" : PyScalar))], [("items", .s "a")], 1,
          [("counter_items", 1)]⟩ : DocErr).fp.length
        + (⟨[], [("items", (.s "a" : PyScalar))], [("items", .s "a")], 1,
            [("counter_items", 1)]⟩ : DocErr).fn.length :=
  ((claim9_error_records ⟨[], [], 0, 0⟩ "doc"
      (.vmap [("items", .vlist [.scalar (.s "a")])])
      (.vmap [("items", .vlist [.scalar (.s "a"), .scalar (.s "a")])])).2
    ⟨[], [("items", .s "a")], [("items", .s "a")], 1, [("counter_items", 1)]⟩
    (by decide)).1

theorem alookup_none_keys {α : Type} {k : String} :
    ∀ {l : List (String × α)}, alookup k l = none → ∀ kv ∈ l, kv.1 ≠ k := by
  intro l
  induction l with
  | nil => intro _ kv hkv; exact absurd hkv (List.not_mem_nil kv)
  | cons p rest ih =>
    intro h kv hkv
    rw [alookup] at h
    by_cases hp : p.1 = k
    · rw [if_pos hp] at h; exact Option.noConfusion h
    · rw [if_neg hp] at h
      rcases List.mem_cons.mp hkv with h' | h'
      · rw [h']; exact hp
      · exact ih h kv h'

theorem alookup_filter_ne {α : Type} {k k' : String} (h : k' ≠ k) :
    ∀ l : List (String × α),
      alookup k' (l.filter fun kv => !(kv.1 == k)) = alookup k' l := by
  intro l
  induction l with
  | nil => rfl
  | cons p rest ih =>
    by_cases hp : p.1 = k
    · rw [List.filter_cons_of_neg (by simp [hp]), ih, alookup,
        if_neg (fun hc : p.1 = k' => h (by rw [← hc]; exact hp))]
    · rw [List.filter_cons_of_pos (by simp [hp]), alookup, alookup]
      by_cases hpk : p.1 = k'
      · rw [if_pos hpk, if_pos hpk]
      · rw [if_neg hpk, if_neg hpk, ih]

theorem foldl_docstep_congr (answers : List (String × ValueTree)) :
    ∀ (st : EvalState) (preds preds' : List (String × ValueTree)),
      (∀ kv ∈ answers, alookup kv.1 preds' = alookup kv.1 preds) →
      answers.foldl
          (fun st kv => processDoc st kv.1
            (match alookup kv.1 preds' with
             | some p => p
             | none => .vmap []) kv.2) st
        = answers.foldl
            (fun st kv => processDoc st kv.1
              (match alookup kv.1 preds with
               | some p => p
               | none => .vmap []) kv.2) st := by
  induction answers with
  | nil => intro _ _ _ _; rfl
  | cons kv rest ih =>
    intro st preds preds' h
    rw [List.foldl_cons, List.foldl_cons,
      h kv (List.mem_cons_self kv rest),
      ih _ preds preds' (fun kv' hkv' => h kv' (List.mem_cons_of_mem kv hkv'))]

theorem processDoc_errors_sub {st : EvalState} {fname : String}
    {predT answerT : ValueTree} :
    ∀ e ∈ (processDoc st fname predT answerT).errors,
      e ∈ st.errors ∨ e.1 = fname := by
  intro e he
  simp only [processDoc] at he
  by_cases hn : 0 < (scanPreds st.metric (flatten (normalize_dict answerT))
        (flatten (normalize_dict predT))).fps.length
      + (scanPreds st.metric (flatten (normalize_dict answerT))
        (flatten (normalize_dict predT))).remaining.length
  · rw [if_pos hn] at he
    rcases List.mem_append.mp he with h | h
    · exact Or.inl h
    · rcases List.mem_cons.mp h with h' | h'
      · rw [h']; exact Or.inr rfl
      · exact absurd h' (List.not_mem_nil e)
  · rw [if_neg hn] at he
    exact Or.inl he

theorem foldl_errors_keys (answers : List (String × ValueTree)) :
    ∀ (preds : List (String × ValueTree)) (st : EvalState),
      ∀ e ∈ (answers.foldl
          (fun st kv => processDoc st kv.1
            (match alookup kv.1 preds with
             | some p => p
             | none => .vmap []) kv.2) st).errors,
        e ∈ st.errors ∨ e.1 ∈ answers.map Prod.fst := by
  induction answers with
  | nil => intro _ _ e he; exact Or.inl he
  | cons kv rest ih =>
    intro preds st e he
    rw [List.foldl_cons] at he
    rcases ih preds _ e he with h | h
    · rcases processDoc_errors_sub e h with h' | h'
      · exact Or.inl h'
      · exact Or.inr (by rw [List.map_cons, h']; exact List.mem_cons_self _ _)
    · exact Or.inr (by rw [List.map_cons]; exact List.mem_cons_of_mem _ h)

/-- Claim C6: the scoring loop is driven by ground-truth keys only.
Removing from the predictions map any key absent from the ground truth
leaves the entire result of `cal_f1_all` (score, per-field stats, and
error map) unchanged, and such a key never appears in the per-document
error map. -/
theorem claim6_gt_keys_only :
    ∀ (preds answers : List (String × ValueTree)) (k : String),
      alookup k answers = none →
      cal_f1_all (preds.filter fun kv => !(kv.1 == k)) answers
          = cal_f1_all preds answers
        ∧ ∀ e ∈ (cal_f1_all preds answers).2.2, e.1 ≠ k := by
  intro preds answers k hk
  have hkeys := alookup_none_keys hk
  have hscan : scanDocs (preds.filter fun kv => !(kv.1 == k)) answers
      = scanDocs preds answers := by
    unfold scanDocs
    exact foldl_docstep_congr answers ⟨[], [], 0, 0⟩ preds _
      (fun kv hkv => alookup_filter_ne (hkeys kv hkv) preds)
  constructor
  · unfold cal_f1_all
    rw [hscan]
  · intro e he
    have he' : e ∈ (scanDocs preds answers).errors :=
      (List.perm_insertionSort errDesc _).mem_iff.mp he
    rcases foldl_errors_keys answers preds ⟨[], [], 0, 0⟩ e he' with h | h
    · exact absurd h (List.not_mem_nil e)
    · rcases List.mem_map.mp h with ⟨kv, hkv, hkv1⟩
      rw [← hkv1]
      exact hkeys kv hkv

theorem claim6_gt_keys_only_witness :
    cal_f1_all
        ([("p", .vmap [("a", .scalar (.s "x"))])].filter fun kv => !(kv.1 == "p"))
        [("d", .vmap [("a", .scalar (.s "x"))])]
      = cal_f1_all [("p", .vmap [("a", .scalar (.s "x"))])]
          [("d", .vmap [("a", .scalar (.s "x"))])] :=
  (claim6_gt_keys_only [("p", .vmap [("a", .scalar (.s "x"))])]
    [("d", .vmap [("a", .scalar (.s "x"))])] "p" rfl).1

theorem alookup_setKey_self {α : Type} (k : String) (v : α) :
    ∀ l : List (String × α), alookup k (setKey k v l) = some v := by
  intro l
  induction l with
  | nil => rw [setKey, alookup, if_pos rfl]
  | cons p rest ih =>
    obtain ⟨k0, v0⟩ := p
    rw [setKey]
    by_cases hk : k0 = k
    · rw [if_pos hk, alookup, if_pos rfl]
    · rw [if_neg hk, alookup, if_neg hk, ih]

theorem insertPred_lookup (preds : PredMap) (ds img : String) (mr : ValueTree) :
    ∃ inner, alookup ds (insertPred preds ds img mr) = some inner
      ∧ alookup img inner = some mr := by
  unfold insertPred
  rcases h : alookup ds preds with _ | inner
  · refine ⟨[(img, mr)], ?_, by rw [alookup, if_pos rfl]⟩
    rw [alookup_append, h, alookup, if_pos rfl]
  · exact ⟨setKey img mr inner, alookup_setKey_self ds _ preds,
      alookup_setKey_self img mr inner⟩

theorem extract_image_name_strip (s : String) :
    extract_image_name ("images/" ++ s) = s := by
  unfold extract_image_name
  rw [if_pos]
  · rw [String.data_append]
    rw [show ("images/".data ++ s.data).drop 7
        = ("images/".data ++ s.data).drop "images/".data.length from rfl]
    rw [List.drop_left]
  · rw [String.data_append]
    exact List.isPrefixOf_iff_prefix.mpr (List.prefix_append _ _)

/-- Claim C10, counterexample: a record whose `model_result` is present
and contains no `_parse_error` key can still be excluded.  With
`model_result = 5` (an int, as `json.loads` can return), the membership
test `"_parse_error" in model_result` raises `TypeError`, the loop's
`except Exception` skips the line, and no prediction is stored. -/
theorem claim10_counterexample :
    processRecord [] ⟨some "d", some "images/x.png", some (.scalar (.i 5)), none⟩ = []
      ∧ alookup "d" (processRecord []
          ⟨some "d", some "images/x.png", some (.scalar (.i 5)), none⟩) = none :=
  ⟨rfl, rfl⟩

/-- Claim C10 (amended): for a record with a non-empty url, the `error`
field never affects loading (it only produces a warning); the record is
retained iff `model_result` is present and the Python membership test
`"_parse_error" in model_result` returns false (the test raises for
non-container scalars and the raise excludes the line); a retained
record is stored under the url with a leading `images/` stripped. -/
theorem claim10_loader :
    ∀ (preds : PredMap) (rec : RawRecord), rec.url.getD "" ≠ "" →
      (∀ e, processRecord preds
            (RawRecord.mk rec.dataset rec.url rec.model_result e)
          = processRecord preds rec)
        ∧ (rec.model_result = none → processRecord preds rec = preds)
        ∧ (∀ mr, rec.model_result = some mr →
            pyIn "_parse_error" mr ≠ some false →
            processRecord preds rec = preds)
        ∧ (∀ mr, rec.model_result = some mr →
            pyIn "_parse_error" mr = some false →
            processRecord preds rec
                = insertPred preds (rec.dataset.getD "unknown")
                    (extract_image_name (rec.url.getD "")) mr
              ∧ ∃ inner,
                  alookup (rec.dataset.getD "unknown") (processRecord preds rec)
                      = some inner
                    ∧ alookup (extract_image_name (rec.url.getD "")) inner
                        = some mr)
        ∧ (∀ s : String, extract_image_name ("images/" ++ s) = s) := by
  intro preds rec hurl
  refine ⟨fun e => rfl, ?_, ?_, ?_, extract_image_name_strip⟩
  · intro hmr
    simp only [processRecord, hmr, if_neg hurl]
  · intro mr hmr hpi
    simp only [processRecord, hmr, if_neg hurl]
    rcases hp : pyIn "_parse_error" mr with _ | b
    · rfl
    · cases b
      · exact absurd hp hpi
      · rfl
  · intro mr hmr hpi
    have hres : processRecord preds rec
        = insertPred preds (rec.dataset.getD "unknown")
            (extract_image_name (rec.url.getD "")) mr := by
      simp only [processRecord, hmr, hpi, if_neg hurl]
    refine ⟨hres, ?_⟩
    rw [hres]
    exact insertPred_lookup preds _ _ mr

theorem claim10_loader_witness :
    processRecord []
        ⟨some "d", some "images/x.png",
          some (.vmap [("a", .scalar (.s "1"))]), some "boom"⟩
      = processRecord []
          ⟨some "d", some "images/x.png",
            some (.vmap [("a", .scalar (.s "1"))]), none⟩ :=
  (claim10_loader []
    ⟨some "d", some "images/x.png", some (.vmap [("a", .scalar (.s "1"))]), none⟩
    (by decide)).1 (some "boom")

theorem toNat_ofNat_valid {n : Nat} (h : n.isValidChar) :
    (Char.ofNat n).toNat = n := by
  unfold Char.ofNat
  rw [dif_pos h]
  rfl

theorem f2hChar_ofNat_ascii {n : Nat} (h1 : 0x20 ≤ n) (h2 : n ≤ 0x7E) :
    f2hChar (Char.ofNat n) = [Char.ofNat n] := by
  have htn : (Char.ofNat n).toNat = n := toNat_ofNat_valid (Or.inl (by omega))
  unfold f2hChar
  rw [htn]
  rw [if_neg (by omega), if_neg (by omega), if_neg (by omega), if_neg (by omega),
    if_neg (by simp only [Bool.and_eq_true, decide_eq_true_eq]; omega)]

theorem f2hChar_stable (c : Char) : ∀ d ∈ f2hChar c, f2hChar d = [d] := by
  intro d hd
  unfold f2hChar at hd
  by_cases h1 : c.toNat = 0x3000
  · rw [if_pos h1] at hd
    rcases List.mem_singleton.mp hd with h
    rw [h]
    decide
  rw [if_neg h1] at hd
  by_cases h2 : c.toNat = 0xFFE5
  · rw [if_pos h2] at hd
    rw [List.mem_singleton.mp hd]
    decide
  rw [if_neg h2] at hd
  by_cases h3 : c.toNat = 0x2014
  · rw [if_pos h3] at hd
    rw [List.mem_singleton.mp hd]
    decide
  rw [if_neg h3] at hd
  by_cases h4 : c.toNat = 0x2103
  · rw [if_pos h4] at hd
    rcases List.mem_cons.mp hd with h | h
    · rw [h]; decide
    · rw [List.mem_singleton.mp h]; decide
  rw [if_neg h4] at hd
  by_cases h5 : (0xFF01 ≤ c.toNat && c.toNat ≤ 0xFF5E) = true
  · rw [if_pos h5] at hd
    rw [List.mem_singleton.mp hd]
    rw [Bool.and_eq_true, decide_eq_true_eq, decide_eq_true_eq] at h5
    exact f2hChar_ofNat_ascii (by omega) (by omega)
  · rw [if_neg h5] at hd
    rw [List.mem_singleton.mp hd]
    unfold f2hChar
    rw [if_neg h1, if_neg h2, if_neg h3, if_neg h4, if_neg h5]

theorem f2hList_fix {l : List Char} (h : ∀ d ∈ l, f2hChar d = [d]) :
    f2hList l = l := by
  induction l with
  | nil => rfl
  | cons c rest ih =>
    rw [f2hList, h c (List.mem_cons_self c rest),
      ih (fun d hd => h d (List.mem_cons_of_mem c hd))]
    rfl

theorem f2hList_mem {l : List Char} {d : Char} (hd : d ∈ f2hList l) :
    ∃ e ∈ l, d ∈ f2hChar e := by
  induction l with
  | nil => exact absurd hd (List.not_mem_nil d)
  | cons c rest ih =>
    rw [f2hList] at hd
    rcases List.mem_append.mp hd with h | h
    · exact ⟨c, List.mem_cons_self c rest, h⟩
    · rcases ih h with ⟨e, he, hde⟩
      exact ⟨e, List.mem_cons_of_mem c he, hde⟩

theorem mapIdOn (f : Char → Char) (l : List Char) (h : ∀ x ∈ l, f x = x) :
    l.map f = l := by
  induction l with
  | nil => rfl
  | cons c rest ih =>
    rw [List.map_cons, h c (List.mem_cons_self c rest),
      ih (fun x hx => h x (List.mem_cons_of_mem c hx))]

theorem f2h_data_clean (t : String) :
    ∀ d ∈ (fullwidth_to_halfwidth t).data,
      f2hChar d = [d] ∧ ¬d = '、' ∧ ¬d = '-' ∧ ¬d = '–' ∧ ¬d = '’' := by
  intro d hd
  have hd5 := dropTrailing_sub hd
  rcases List.mem_map.mp hd5 with ⟨e, he, hde⟩
  rcases List.mem_filter.mp he with ⟨he2, hpe2⟩
  rcases List.mem_filter.mp he2 with ⟨he3, hpe3⟩
  rcases List.mem_map.mp he3 with ⟨c0, hc0, hec0⟩
  have hc0stable : f2hChar c0 = [c0] := by
    rcases f2hList_mem hc0 with ⟨x, _, hcx⟩
    exact f2hChar_stable x c0 hcx
  have he_all : f2hChar e = [e] ∧ ¬e = '、' := by
    by_cases hcomma : c0 = '、'
    · rw [← hec0, if_pos hcomma]
      exact ⟨by decide, by decide⟩
    · rw [← hec0, if_neg hcomma]
      exact ⟨hc0stable, hcomma⟩
  have he_h : ¬e = '-' := by simpa using hpe3
  have he_d : ¬e = '–' := by simpa using hpe2
  by_cases hq : e = '’'
  · rw [← hde, if_pos hq]
    exact ⟨by decide, by decide, by decide, by decide, by decide⟩
  · rw [← hde, if_neg hq]
    exact ⟨he_all.1, he_all.2, he_h, he_d, hq⟩

theorem f2h_of_clean (cs : List Char)
    (h : ∀ d ∈ cs, f2hChar d = [d] ∧ ¬d = '、' ∧ ¬d = '-' ∧ ¬d = '–' ∧ ¬d = '’') :
    fullwidth_to_halfwidth (String.mk cs)
      = String.mk (dropTrailing (fun c => c = '。' || c = '.') cs) := by
  simp only [fullwidth_to_halfwidth]
  rw [f2hList_fix (fun d hd => (h d hd).1)]
  rw [mapIdOn (fun c => if c = '、' then ',' else c) cs
    (fun d hd => if_neg (h d hd).2.1)]
  rw [(List.filter_eq_self (p := fun c => !decide (c = '-')) (l := cs)).mpr
    (fun d hd => by
      simp only [Bool.not_eq_true']
      exact decide_eq_false (h d hd).2.2.1)]
  rw [(List.filter_eq_self (p := fun c => !decide (c = '–')) (l := cs)).mpr
    (fun d hd => by
      simp only [Bool.not_eq_true']
      exact decide_eq_false (h d hd).2.2.2.1)]
  rw [mapIdOn (fun c => if c = '’' then Char.ofNat 0x27 else c) cs
    (fun d hd => if_neg (h d hd).2.2.2.2)]

theorem f2h_idem (t : String) :
    fullwidth_to_halfwidth (fullwidth_to_halfwidth t)
      = fullwidth_to_halfwidth t := by
  obtain ⟨l, hl⟩ : ∃ l, (fullwidth_to_halfwidth t).data
      = dropTrailing (fun c => c = '。' || c = '.') l := ⟨_, rfl⟩
  have h1 := f2h_of_clean (fullwidth_to_halfwidth t).data (f2h_data_clean t)
  have h2 : dropTrailing (fun c => c = '。' || c = '.')
      (fullwidth_to_halfwidth t).data = (fullwidth_to_halfwidth t).data := by
    rw [hl, dropTrailing_idem]
  calc fullwidth_to_halfwidth (fullwidth_to_halfwidth t)
      = fullwidth_to_halfwidth (String.mk (fullwidth_to_halfwidth t).data) := rfl
    _ = String.mk (dropTrailing (fun c => c = '。' || c = '.')
          (fullwidth_to_halfwidth t).data) := h1
    _ = String.mk (fullwidth_to_halfwidth t).data := by rw [h2]
    _ = fullwidth_to_halfwidth t := rfl

theorem f2h_data_mem (t : String) :
    ∀ d ∈ (fullwidth_to_halfwidth t).data,
      d = ',' ∨ d = Char.ofNat 0x27 ∨ ∃ e ∈ t.data, d ∈ f2hChar e := by
  intro d hd
  have hd5 := dropTrailing_sub hd
  rcases List.mem_map.mp hd5 with ⟨e, he, hde⟩
  rcases List.mem_filter.mp he with ⟨he2, _⟩
  rcases List.mem_filter.mp he2 with ⟨he3, _⟩
  rcases List.mem_map.mp he3 with ⟨c0, hc0, hec0⟩
  by_cases hq : e = '’'
  · rw [← hde, if_pos hq]
    exact Or.inr (Or.inl rfl)
  · rw [← hde, if_neg hq]
    by_cases hcomma : c0 = '、'
    · rw [← hec0, if_pos hcomma]
      exact Or.inl rfl
    · rw [← hec0, if_neg hcomma]
      rcases f2hList_mem hc0 with ⟨x, hx, hcx⟩
      exact Or.inr (Or.inr ⟨x, hx, hcx⟩)

theorem isPySpace_false_of_ascii {d : Char} (h1 : 0x21 ≤ d.toNat)
    (h2 : d.toNat ≤ 0x7E) : isPySpace d = false := by
  unfold isPySpace
  simp only [Bool.or_eq_false_iff, Bool.and_eq_false_iff,
    decide_eq_false_iff_not]
  omega

theorem f2hChar_no_ws_tick {c : Char} (hc : plainCharB c = true) :
    ∀ d ∈ f2hChar c, isPySpace d = false ∧ ¬d = '`' := by
  have hc' := hc
  unfold plainCharB at hc'
  simp only [Bool.and_eq_true, Bool.not_eq_true', decide_eq_false_iff_not] at hc'
  obtain ⟨⟨⟨hws, htick⟩, h3000⟩, hff40⟩ := hc'
  intro d hd
  unfold f2hChar at hd
  rw [if_neg h3000] at hd
  by_cases h2 : c.toNat = 0xFFE5
  · rw [if_pos h2] at hd
    rw [List.mem_singleton.mp hd]
    exact ⟨by decide, by decide⟩
  rw [if_neg h2] at hd
  by_cases h3 : c.toNat = 0x2014
  · rw [if_pos h3] at hd
    rw [List.mem_singleton.mp hd]
    exact ⟨by decide, by decide⟩
  rw [if_neg h3] at hd
  by_cases h4 : c.toNat = 0x2103
  · rw [if_pos h4] at hd
    rcases List.mem_cons.mp hd with h | h
    · rw [h]; exact ⟨by decide, by decide⟩
    · rw [List.mem_singleton.mp h]; exact ⟨by decide, by decide⟩
  rw [if_neg h4] at hd
  by_cases h5 : (0xFF01 ≤ c.toNat && c.toNat ≤ 0xFF5E) = true
  · rw [if_pos h5] at hd
    rw [List.mem_singleton.mp hd]
    rw [Bool.and_eq_true, decide_eq_true_eq, decide_eq_true_eq] at h5
    have htn : (Char.ofNat (c.toNat - 0xFEE0)).toNat = c.toNat - 0xFEE0 :=
      toNat_ofNat_valid (Or.inl (by omega))
    constructor
    · exact isPySpace_false_of_ascii (by omega) (by omega)
    · intro hback
      have := congrArg Char.toNat hback
      rw [htn] at this
      have hc40 : c.toNat = 0xFF40 := by
        rw [show ('`').toNat = 0x60 from rfl] at this
        omega
      exact hff40 hc40
  · rw [if_neg h5] at hd
    rw [List.mem_singleton.mp hd]
    exact ⟨hws, htick⟩

theorem hasSub_false_of_no_tick {l : List Char} (h : ∀ d ∈ l, ¬d = '`')
    {pat : List Char} {p : List Char} (hpat : pat = '`' :: p) :
    hasSub pat l = false := by
  induction l with
  | nil => rw [hpat]; rfl
  | cons c rest ih =>
    rw [hasSub, hpat]
    have hc : ('`' == c) = false :=
      beq_eq_false_iff_ne.mpr
        (fun hx => h c (List.mem_cons_self c rest) hx.symm)
    rw [List.isPrefixOf, hc, Bool.false_and, Bool.false_or, ← hpat]
    exact ih (fun d hd => h d (List.mem_cons_of_mem c hd))

theorem g_id_of_clean {t : String}
    (h : ∀ d ∈ t.data, isPySpace d = false ∧ ¬d = '`') :
    remove_unnecessary_spaces t = t := by
  have hjson : hasSub "```json".data t.data = false :=
    hasSub_false_of_no_tick (fun d hd => (h d hd).2) rfl
  have htick : hasSub "```".data t.data = false :=
    hasSub_false_of_no_tick (fun d hd => (h d hd).2) rfl
  simp only [remove_unnecessary_spaces, hjson, htick, Bool.false_eq_true,
    if_false]
  rw [List.filter_eq_self.mpr (fun d hd => by rw [(h d hd).1]; rfl)]

/-- Claim C4 (amended): `normalize_func` (modelled as a pure total
function) is idempotent on every string that contains no whitespace, no
backtick, no full-width space (U+3000) and no full-width grave accent
(U+FF40) — the characters through which whitespace removal and fence
extraction can interact with a later pass.  It is not idempotent in
general (see the counterexample). -/
theorem claim4_amended :
    ∀ t : String, (∀ c ∈ t.data, plainCharB c = true) →
      normalize_func (normalize_func t) = normalize_func t := by
  intro t h
  have hft : ∀ d ∈ (fullwidth_to_halfwidth t).data,
      isPySpace d = false ∧ ¬d = '`' := by
    intro d hd
    rcases f2h_data_mem t d hd with h1 | h1 | ⟨e, he, hde⟩
    · rw [h1]; exact ⟨by decide, by decide⟩
    · rw [h1]; exact ⟨by decide, by decide⟩
    · exact f2hChar_no_ws_tick (h e he) d hde
  have hg : remove_unnecessary_spaces (fullwidth_to_halfwidth t)
      = fullwidth_to_halfwidth t := g_id_of_clean hft
  unfold normalize_func
  rw [hg, f2h_idem, hg]

theorem claim4_amended_witness :
    normalize_func (normalize_func "abc") = normalize_func "abc" :=
  claim4_amended "abc" (by decide)

theorem strLtL_irrefl : ∀ a : List Char, strLtL a a = false := by
  intro a
  induction a with
  | nil => rfl
  | cons c rest ih =>
    rw [strLtL, if_neg (by omega), if_neg (by omega)]
    exact ih

theorem strLtL_trans :
    ∀ a b c : List Char, strLtL a b = true → strLtL b c = true →
      strLtL a c = true := by
  intro a
  induction a with
  | nil =>
    intro b c hab hbc
    cases c with
    | nil =>
      cases b with
      | nil => exact hab
      | cons y ys => exact absurd hbc (by rw [strLtL]; exact fun h => Bool.noConfusion h)
    | cons z zs => rfl
  | cons x xs ih =>
    intro b c hab hbc
    cases b with
    | nil => exact absurd hab (by rw [strLtL]; exact fun h => Bool.noConfusion h)
    | cons y ys =>
      cases c with
      | nil => exact absurd hbc (by rw [strLtL]; exact fun h => Bool.noConfusion h)
      | cons z zs =>
        rw [strLtL] at hab hbc ⊢
        by_cases h1 : x.toNat < y.toNat
        · by_cases h2 : y.toNat < z.toNat
          · rw [if_pos (by omega)]
          · rw [if_neg h2] at hbc
            by_cases h3 : z.toNat < y.toNat
            · rw [if_pos h3] at hbc; exact Bool.noConfusion hbc
            · rw [if_pos (by omega)]
        · rw [if_neg h1] at hab
          by_cases h1' : y.toNat < x.toNat
          · rw [if_pos h1'] at hab; exact Bool.noConfusion hab
          · rw [if_neg h1'] at hab
            by_cases h2 : y.toNat < z.toNat
            · rw [if_pos (by omega)]
            · rw [if_neg h2] at hbc
              by_cases h3 : z.toNat < y.toNat
              · rw [if_pos h3] at hbc; exact Bool.noConfusion hbc
              · rw [if_neg h3] at hbc
                rw [if_neg (by omega), if_neg (by omega)]
                exact ih ys zs hab hbc

theorem strLtL_neg_trans :
    ∀ c b a : List Char, strLtL b a = false → strLtL c b = false →
      strLtL c a = false := by
  intro c
  induction c with
  | nil =>
    intro b a hba hcb
    cases a with
    | nil => rfl
    | cons x xs =>
      cases b with
      | nil => exact absurd hba (by rw [strLtL]; exact fun h => Bool.noConfusion h.symm)
      | cons y ys => exact absurd hcb (by rw [strLtL]; exact fun h => Bool.noConfusion h.symm)
  | cons z zs ih =>
    intro b a hba hcb
    cases a with
    | nil => rw [strLtL]
    | cons x xs =>
      cases b with
      | nil => exact absurd hba (by rw [strLtL]; exact fun h => Bool.noConfusion h.symm)
      | cons y ys =>
        rw [strLtL] at hba hcb ⊢
        by_cases h1 : y.toNat < x.toNat
        · rw [if_pos h1] at hba; exact Bool.noConfusion hba
        · rw [if_neg h1] at hba
          by_cases h2 : z.toNat < y.toNat
          · rw [if_pos h2] at hcb; exact Bool.noConfusion hcb
          · rw [if_neg h2] at hcb
            by_cases h3 : z.toNat < x.toNat
            · exfalso
              by_cases h4 : x.toNat < y.toNat
              · omega
              · by_cases h5 : y.toNat < z.toNat
                · omega
                · rw [if_neg h4] at hba
                  rw [if_neg h5] at hcb
                  have hyx : x.toNat = y.toNat := by omega
                  have hzy : y.toNat = z.toNat := by omega
                  omega
            · rw [if_neg h3]
              by_cases h4 : x.toNat < z.toNat
              · rw [if_pos h4]
              · rw [if_neg h4]
                by_cases h5 : x.toNat < y.toNat
                · omega
                · by_cases h6 : y.toNat < z.toNat
                  · omega
                  · rw [if_neg h5] at hba
                    rw [if_neg h6] at hcb
                    exact ih ys xs hba hcb

theorem pyKeyLe_trans {a b c : String} (hab : pyKeyLe a b = true)
    (hbc : pyKeyLe b c = true) : pyKeyLe a c = true := by
  unfold pyKeyLe at hab hbc ⊢
  by_cases h1 : a.data.length < b.data.length
  · by_cases h2 : b.data.length < c.data.length
    · rw [if_pos (by omega)]
    · rw [if_neg h2] at hbc
      by_cases h3 : c.data.length < b.data.length
      · rw [if_pos h3] at hbc; exact Bool.noConfusion hbc
      · rw [if_pos (by omega)]
  · rw [if_neg h1] at hab
    by_cases h1' : b.data.length < a.data.length
    · rw [if_pos h1'] at hab; exact Bool.noConfusion hab
    · rw [if_neg h1'] at hab
      by_cases h2 : b.data.length < c.data.length
      · rw [if_pos (by omega)]
      · rw [if_neg h2] at hbc
        by_cases h3 : c.data.length < b.data.length
        · rw [if_pos h3] at hbc; exact Bool.noConfusion hbc
        · rw [if_neg h3] at hbc
          rw [if_neg (by omega), if_neg (by omega)]
          simp only [Bool.not_eq_true'] at hab hbc ⊢
          exact strLtL_neg_trans c.data b.data a.data hab hbc

theorem pyKeyLe_total (a b : String) :
    pyKeyLe a b = true ∨ pyKeyLe b a = true := by
  unfold pyKeyLe
  by_cases h1 : a.data.length < b.data.length
  · exact Or.inl (by rw [if_pos h1])
  · by_cases h2 : b.data.length < a.data.length
    · exact Or.inr (by rw [if_pos h2])
    · rw [if_neg h1, if_neg h2, if_neg (by omega), if_neg (by omega)]
      by_cases h3 : strLtL b.data a.data = true
      · refine Or.inr ?_
        simp only [Bool.not_eq_true']
        by_cases h4 : strLtL a.data b.data = true
        · have := strLtL_trans _ _ _ h3 h4
          rw [strLtL_irrefl] at this
          exact absurd this (fun h => Bool.noConfusion h)
        · simp only [Bool.not_eq_true] at h4
          exact h4
      · simp only [Bool.not_eq_true] at h3
        exact Or.inl (by rw [h3]; rfl)

theorem pairwise_of_keysSortedB :
    ∀ {l : List (String × ValueTree)}, keysSortedB l = true →
      List.Pairwise entryLe l := by
  intro l
  induction l with
  | nil => intro _; exact List.Pairwise.nil
  | cons a rest ih =>
    intro h
    cases rest with
    | nil => exact List.pairwise_singleton _ _
    | cons b r =>
      rw [keysSortedB, Bool.and_eq_true] at h
      have hpair := ih h.2
      refine List.Pairwise.cons ?_ hpair
      intro y hy
      rcases List.mem_cons.mp hy with h' | h'
      · rw [h']; exact h.1
      · have hby : entryLe b y := (List.pairwise_cons.mp hpair).1 y h'
        exact pyKeyLe_trans h.1 hby

theorem keysSortedB_of_pairwise :
    ∀ {l : List (String × ValueTree)}, List.Pairwise entryLe l →
      keysSortedB l = true := by
  intro l
  induction l with
  | nil => intro _; rfl
  | cons a rest ih =>
    intro h
    rcases List.pairwise_cons.mp h with ⟨hhead, htail⟩
    cases rest with
    | nil => rfl
    | cons b r =>
      rw [keysSortedB, Bool.and_eq_true]
      exact ⟨hhead b (List.mem_cons_self b r), ih htail⟩

theorem normEntries_mem :
    ∀ {kvs : List (String × ValueTree)} {p : String × ValueTree},
      p ∈ normEntries kvs → ∃ v, (p.1, v) ∈ kvs ∧ p.2 = normalize_dict v := by
  intro kvs
  induction kvs with
  | nil => intro p hp; exact absurd hp (List.not_mem_nil p)
  | cons kv rest ih =>
    obtain ⟨k, v⟩ := kv
    intro p hp
    rw [normEntries] at hp
    rcases List.mem_cons.mp hp with h | h
    · exact ⟨v, by rw [h]; exact List.mem_cons_self _ _, by rw [h]⟩
    · rcases ih h with ⟨v', hv', hp'⟩
      exact ⟨v', List.mem_cons_of_mem _ hv', hp'⟩

theorem normDictList_mem :
    ∀ {xs : List ValueTree} {y : ValueTree}, y ∈ normDictList xs →
      ∃ x ∈ xs, y = normalize_dict x ∧ vtTruthy y = true := by
  intro xs
  induction xs with
  | nil => intro y hy; exact absurd hy (List.not_mem_nil y)
  | cons x rest ih =>
    intro y hy
    rw [normDictList] at hy
    by_cases ht : vtTruthy (normalize_dict x) = true
    · rw [if_pos ht] at hy
      rcases List.mem_cons.mp hy with h | h
      · exact ⟨x, List.mem_cons_self x rest, h, by rw [h]; exact ht⟩
      · rcases ih h with ⟨x', hx', hy', ht'⟩
        exact ⟨x', List.mem_cons_of_mem x hx', hy', ht'⟩
    · rw [if_neg ht] at hy
      rcases ih hy with ⟨x', hx', hy', ht'⟩
      exact ⟨x', List.mem_cons_of_mem x hx', hy', ht'⟩

theorem keepEntries_mem :
    ∀ {l : List (String × ValueTree)} {p : String × ValueTree},
      p ∈ keepEntries l →
      ∃ v, (p.1, v) ∈ l ∧ vtTruthy v = true ∧ p.2 = wrapIfNotList v := by
  intro l
  induction l with
  | nil => intro p hp; exact absurd hp (List.not_mem_nil p)
  | cons kv rest ih =>
    obtain ⟨k, v⟩ := kv
    intro p hp
    rw [keepEntries] at hp
    by_cases ht : vtTruthy v = true
    · rw [if_pos ht] at hp
      rcases List.mem_cons.mp hp with h | h
      · exact ⟨v, by rw [h]; exact List.mem_cons_self _ _, ht, by rw [h]⟩
      · rcases ih h with ⟨v', hv', ht', hp'⟩
        exact ⟨v', List.mem_cons_of_mem _ hv', ht', hp'⟩
    · rw [if_neg ht] at hp
      rcases ih hp with ⟨v', hv', ht', hp'⟩
      exact ⟨v', List.mem_cons_of_mem _ hv', ht', hp'⟩

theorem keepEntries_pairwise :
    ∀ {l : List (String × ValueTree)}, List.Pairwise entryLe l →
      List.Pairwise entryLe (keepEntries l) := by
  intro l
  induction l with
  | nil => intro _; exact List.Pairwise.nil
  | cons kv rest ih =>
    obtain ⟨k, v⟩ := kv
    intro h
    rcases List.pairwise_cons.mp h with ⟨hhead, htail⟩
    rw [keepEntries]
    by_cases ht : vtTruthy v = true
    · rw [if_pos ht]
      refine List.Pairwise.cons ?_ (ih htail)
      intro y hy
      rcases keepEntries_mem hy with ⟨v', hv', _, _⟩
      exact hhead (y.1, v') hv'
    · rw [if_neg ht]
      exact ih htail

theorem goodEntriesB_mem :
    ∀ {kvs : List (String × ValueTree)}, goodEntriesB kvs = true →
      ∀ kv ∈ kvs, goodB kv.2 = true := by
  intro kvs
  induction kvs with
  | nil => intro _ kv hkv; exact absurd hkv (List.not_mem_nil kv)
  | cons p rest ih =>
    obtain ⟨k, v⟩ := p
    intro h kv hkv
    rw [goodEntriesB, Bool.and_eq_true] at h
    rcases List.mem_cons.mp hkv with h' | h'
    · rw [h']; exact h.1
    · exact ih h.2 kv h'

theorem goodListB_mem :
    ∀ {xs : List ValueTree}, goodListB xs = true →
      ∀ x ∈ xs, goodB x = true := by
  intro xs
  induction xs with
  | nil => intro _ x hx; exact absurd hx (List.not_mem_nil x)
  | cons y rest ih =>
    intro h x hx
    rw [goodListB, Bool.and_eq_true] at h
    rcases List.mem_cons.mp hx with h' | h'
    · rw [h']; exact h.1
    · exact ih h.2 x h'

theorem canonEntriesB_of_mem :
    ∀ {l : List (String × ValueTree)},
      (∀ kv ∈ l, canonValB kv.2 = true) → canonEntriesB l = true := by
  intro l
  induction l with
  | nil => intro _; rw [canonEntriesB]
  | cons p rest ih =>
    obtain ⟨k, v⟩ := p
    intro h
    rw [canonEntriesB, Bool.and_eq_true]
    exact ⟨h (k, v) (List.mem_cons_self _ _),
      ih (fun kv hkv => h kv (List.mem_cons_of_mem _ hkv))⟩

theorem canonEntriesB_mem :
    ∀ {l : List (String × ValueTree)}, canonEntriesB l = true →
      ∀ kv ∈ l, canonValB kv.2 = true := by
  intro l
  induction l with
  | nil => intro _ kv hkv; exact absurd hkv (List.not_mem_nil kv)
  | cons p rest ih =>
    obtain ⟨k, v⟩ := p
    intro h kv hkv
    rw [canonEntriesB, Bool.and_eq_true] at h
    rcases List.mem_cons.mp hkv with h' | h'
    · rw [h']; exact h.1
    · exact ih h.2 kv h'

theorem canonMapsB_of_mem :
    ∀ {l : List ValueTree},
      (∀ x ∈ l, vtTruthy x = true ∧ canonMapB x = true) → canonMapsB l = true := by
  intro l
  induction l with
  | nil => intro _; rw [canonMapsB]
  | cons x rest ih =>
    intro h
    rw [canonMapsB, Bool.and_eq_true, Bool.and_eq_true]
    rcases h x (List.mem_cons_self _ _) with ⟨h1, h2⟩
    exact ⟨⟨h1, h2⟩, ih (fun y hy => h y (List.mem_cons_of_mem _ hy))⟩

theorem canonMapsB_mem :
    ∀ {l : List ValueTree}, canonMapsB l = true →
      ∀ x ∈ l, vtTruthy x = true ∧ canonMapB x = true := by
  intro l
  induction l with
  | nil => intro _ x hx; exact absurd hx (List.not_mem_nil x)
  | cons y rest ih =>
    intro h x hx
    rw [canonMapsB, Bool.and_eq_true, Bool.and_eq_true] at h
    rcases List.mem_cons.mp hx with h' | h'
    · rw [h']; exact h.1
    · exact ih h.2 x h'

theorem normalize_dict_scalar_eq (sc : PyScalar) :
    normalize_dict (.scalar sc) = .vlist [.scalar (.s (pyStrip (pyStr sc)))] := by
  rw [normalize_dict]

theorem normalize_dict_vlist_eq (xs : List ValueTree) :
    normalize_dict (.vlist xs)
      = if allDictsB xs then .vlist (normDictList xs)
        else .vlist (keepScalars xs) := by
  rw [normalize_dict]

theorem normalize_dict_vmap_eq (kvs : List (String × ValueTree)) :
    normalize_dict (.vmap kvs)
      = .vmap (keepEntries (List.insertionSort entryLe (normEntries kvs))) := by
  rw [normalize_dict]

theorem normalize_dict_not_scalar (t : ValueTree) :
    (∃ xs, normalize_dict t = .vlist xs) ∨
      ∃ kvs, normalize_dict t = .vmap kvs := by
  cases t with
  | scalar sc => exact Or.inl ⟨_, normalize_dict_scalar_eq sc⟩
  | vlist xs =>
    by_cases h : allDictsB xs = true
    · exact Or.inl ⟨normDictList xs, by rw [normalize_dict_vlist_eq, if_pos h]⟩
    · exact Or.inl ⟨keepScalars xs, by rw [normalize_dict_vlist_eq, if_neg h]⟩
  | vmap kvs => exact Or.inr ⟨_, normalize_dict_vmap_eq kvs⟩

theorem keepScalars_fix :
    ∀ {xs : List ValueTree}, (∀ x ∈ xs, goodStrB x = true) →
      keepScalars xs = xs := by
  intro xs
  induction xs with
  | nil => intro _; rfl
  | cons x rest ih =>
    intro h
    have hx := h x (List.mem_cons_self x rest)
    have hrest := ih (fun y hy => h y (List.mem_cons_of_mem x hy))
    rcases x with sc | ys | kvs
    · rcases sc with v | v | v | v
      · rw [goodStrB, Bool.and_eq_true] at hx
        have hstrip : pyStrip v = v := by
          have := hx.1
          rwa [beq_iff_eq] at this
        have hne : ¬(v = "") := by
          have := hx.2
          simpa using this
        rw [keepScalars_cons_scalar]
        rw [show pyStr (PyScalar.s v) = v from rfl, hstrip]
        rw [if_pos (by simp [scalarTyOk, hne])]
        rw [hrest]
      · exact Bool.noConfusion hx
      · exact Bool.noConfusion hx
      · exact Bool.noConfusion hx
    · exact Bool.noConfusion hx
    · exact Bool.noConfusion hx

theorem keepEntries_fix :
    ∀ {l : List (String × ValueTree)},
      (∀ kv ∈ l, canonValB kv.2 = true) → keepEntries l = l := by
  intro l
  induction l with
  | nil => intro _; rfl
  | cons p rest ih =>
    obtain ⟨k, v⟩ := p
    intro h
    have hv := h (k, v) (List.mem_cons_self _ _)
    rcases v with sc | ys | kvs
    · rw [show canonValB (.scalar sc) = false by simp [canonValB]] at hv
      exact Bool.noConfusion hv
    · rw [canonValB, Bool.and_eq_true] at hv
      rw [keepEntries, if_pos (by rw [vtTruthy]; exact hv.1)]
      rw [show wrapIfNotList (ValueTree.vlist ys) = ValueTree.vlist ys from rfl]
      rw [ih (fun kv hkv => h kv (List.mem_cons_of_mem _ hkv))]
    · rw [show canonValB (.vmap kvs) = false by simp [canonValB]] at hv
      exact Bool.noConfusion hv

theorem normDictList_fix :
    ∀ {xs : List ValueTree},
      (∀ x ∈ xs, vtTruthy x = true ∧ normalize_dict x = x) →
      normDictList xs = xs := by
  intro xs
  induction xs with
  | nil => intro _; rfl
  | cons x rest ih =>
    intro h
    rcases h x (List.mem_cons_self x rest) with ⟨ht, hn⟩
    rw [normDictList]
    simp only [hn, if_pos ht]
    rw [ih (fun y hy => h y (List.mem_cons_of_mem x hy))]

theorem normEntries_fix :
    ∀ {l : List (String × ValueTree)},
      (∀ kv ∈ l, normalize_dict kv.2 = kv.2) → normEntries l = l := by
  intro l
  induction l with
  | nil => intro _; rfl
  | cons p rest ih =>
    obtain ⟨k, v⟩ := p
    intro h
    rw [normEntries, h (k, v) (List.mem_cons_self _ _),
      ih (fun kv hkv => h kv (List.mem_cons_of_mem _ hkv))]

theorem normalize_canon :
    ∀ t : ValueTree,
      (goodB t = true → canonTopB (normalize_dict t) = true)
        ∧ (canonTopB t = true → normalize_dict t = t) := by
  refine vt_ind ?_ ?_ ?_
  · intro sc
    constructor
    · intro hg
      have hne : ¬(pyStrip (pyStr sc) = "") := by simpa [goodB] using hg
      have h1 : pyStrip (pyStrip (pyStr sc)) = pyStrip (pyStr sc) := pyStrip_idem _
      rw [normalize_dict_scalar_eq, canonTopB, canonElemsB,
        if_neg (fun h : allDictsB _ = true => Bool.noConfusion h)]
      simp [goodStrB, h1, hne]
    · intro hc
      rw [canonTopB] at hc
      exact Bool.noConfusion hc
  · intro xs hIH
    constructor
    · intro hg
      have hgood : ∀ x ∈ xs, goodB x = true := goodListB_mem (by rwa [goodB] at hg)
      rw [normalize_dict_vlist_eq]
      by_cases hall : allDictsB xs = true
      · rw [if_pos hall]
        have halld : allDictsB (normDictList xs) = true := by
          rw [allDictsB]
          refine List.all_eq_true.mpr ?_
          intro y hy
          rcases normDictList_mem hy with ⟨x, hx, hyx, _⟩
          have hxd : isDictB x = true := by
            rw [allDictsB] at hall
            exact List.all_eq_true.mp hall x hx
          rcases x with sc | ys | kvs
          · exact Bool.noConfusion hxd
          · exact Bool.noConfusion hxd
          · rw [hyx, normalize_dict_vmap_eq]; rfl
        rw [canonTopB, canonElemsB, if_pos halld]
        refine canonMapsB_of_mem ?_
        intro y hy
        rcases normDictList_mem hy with ⟨x, hx, hyx, hty⟩
        refine ⟨hty, ?_⟩
        have hxd : isDictB x = true := by
          rw [allDictsB] at hall
          exact List.all_eq_true.mp hall x hx
        rcases x with sc | ys | kvs
        · exact Bool.noConfusion hxd
        · exact Bool.noConfusion hxd
        · have hcanon := (hIH _ hx).1 (hgood _ hx)
          rw [normalize_dict_vmap_eq, canonTopB] at hcanon
          rw [hyx, normalize_dict_vmap_eq, canonMapB]
          exact hcanon
      · rw [if_neg hall, canonTopB]
        rcases hks : keepScalars xs with _ | ⟨y, ys⟩
        · rw [canonElemsB,
            if_pos (show allDictsB ([] : List ValueTree) = true from rfl),
            canonMapsB]
        · have hd : allDictsB (y :: ys) = false := by
            rcases keepScalars_shape xs y
                (by rw [hks]; exact List.mem_cons_self _ _) with ⟨v, hyv, _, _⟩
            rw [allDictsB, List.all_cons, hyv]
            rfl
          rw [canonElemsB, if_neg (by rw [hd]; exact fun h => Bool.noConfusion h)]
          refine List.all_eq_true.mpr ?_
          intro z hz
          rcases keepScalars_shape xs z (by rw [hks]; exact hz) with ⟨v, hzv, hstrip, hne⟩
          rw [hzv, goodStrB]
          simp [hstrip, hne]
    · intro hc
      rw [canonTopB] at hc
      rw [normalize_dict_vlist_eq]
      by_cases hall : allDictsB xs = true
      · rw [if_pos hall]
        rw [canonElemsB, if_pos hall] at hc
        have hmem := canonMapsB_mem hc
        rw [normDictList_fix ?_]
        intro x hx
        rcases hmem x hx with ⟨ht, hcm⟩
        refine ⟨ht, ?_⟩
        rcases x with sc | ys | kvs
        · rw [show canonMapB (.scalar sc) = false by simp [canonMapB]] at hcm
          exact Bool.noConfusion hcm
        · rw [show canonMapB (.vlist ys) = false by simp [canonMapB]] at hcm
          exact Bool.noConfusion hcm
        · refine (hIH _ hx).2 ?_
          rw [canonMapB] at hcm
          rw [canonTopB]
          exact hcm
      · rw [if_neg hall]
        rw [canonElemsB, if_neg hall] at hc
        exact congrArg ValueTree.vlist (keepScalars_fix (List.all_eq_true.mp hc))
  · intro kvs hIH
    constructor
    · intro hg
      have hgood := goodEntriesB_mem (by rwa [goodB] at hg)
      rw [normalize_dict_vmap_eq, canonTopB, Bool.and_eq_true]
      constructor
      · refine keysSortedB_of_pairwise (keepEntries_pairwise ?_)
        haveI : IsTotal (String × ValueTree) entryLe :=
          ⟨fun a b => pyKeyLe_total a.1 b.1⟩
        haveI : IsTrans (String × ValueTree) entryLe :=
          ⟨fun _ _ _ hab hbc => pyKeyLe_trans hab hbc⟩
        exact List.sorted_insertionSort entryLe _
      · refine canonEntriesB_of_mem ?_
        intro p hp
        rcases keepEntries_mem hp with ⟨v, hv, htv, hpv⟩
        have hv' : (p.1, v) ∈ normEntries kvs :=
          (List.perm_insertionSort entryLe (normEntries kvs)).mem_iff.mp hv
        rcases normEntries_mem hv' with ⟨v0, hv0, hveq⟩
        have hcanonv := (hIH _ hv0).1 (hgood _ hv0)
        rw [hpv]
        rcases normalize_dict_not_scalar v0 with ⟨xs0, hx0⟩ | ⟨kvs0, hk0⟩
        · rw [show v = normalize_dict v0 from hveq, hx0]
          rw [show wrapIfNotList (ValueTree.vlist xs0) = ValueTree.vlist xs0 from rfl]
          rw [canonValB, Bool.and_eq_true]
          constructor
          · rw [show v = normalize_dict v0 from hveq, hx0] at htv
            rwa [vtTruthy] at htv
          · rw [hx0, canonTopB] at hcanonv
            exact hcanonv
        · rw [show v = normalize_dict v0 from hveq, hk0]
          rw [show wrapIfNotList (ValueTree.vmap kvs0)
              = ValueTree.vlist [ValueTree.vmap kvs0] from rfl]
          rw [canonValB, Bool.and_eq_true]
          refine ⟨rfl, ?_⟩
          rw [canonElemsB,
            if_pos (show allDictsB [ValueTree.vmap kvs0] = true from rfl)]
          refine canonMapsB_of_mem ?_
          intro z hz
          rw [List.mem_singleton.mp hz]
          constructor
          · rw [show v = normalize_dict v0 from hveq, hk0] at htv
            exact htv
          · rw [canonMapB]
            rw [hk0, canonTopB] at hcanonv
            exact hcanonv
    · intro hc
      rw [canonTopB, Bool.and_eq_true] at hc
      have hentries := canonEntriesB_mem hc.2
      rw [normalize_dict_vmap_eq]
      have hnorm : normEntries kvs = kvs := by
        refine normEntries_fix ?_
        intro kv hkv
        have hv := hentries kv hkv
        have h3 := (hIH kv hkv).2
        rcases h2 : kv.2 with sc | ys | kvs'
        · rw [h2] at hv
          rw [show canonValB (.scalar sc) = false by simp [canonValB]] at hv
          exact Bool.noConfusion hv
        · rw [h2] at hv
          rw [canonValB, Bool.and_eq_true] at hv
          rw [h2] at h3
          refine h3 ?_
          rw [canonTopB]
          exact hv.2
        · rw [h2] at hv
          rw [show canonValB (.vmap kvs') = false by simp [canonValB]] at hv
          exact Bool.noConfusion hv
      rw [hnorm]
      rw [List.Sorted.insertionSort_eq (pairwise_of_keysSortedB hc.1)]
      rw [keepEntries_fix hentries]

/-- Claim C3 (amended): the structure normalizer is idempotent on every
tree all of whose scalar leaves have a non-empty stripped string
rendering (`goodB`); in general idempotence fails only through scalar
leaves that strip to the empty string (see the counterexample). -/
theorem claim3_idempotent_amended :
    ∀ t : ValueTree, goodB t = true →
      normalize_dict (normalize_dict t) = normalize_dict t := by
  intro t hg
  exact (normalize_canon (normalize_dict t)).2 ((normalize_canon t).1 hg)

theorem claim3_idempotent_amended_witness :
    normalize_dict (normalize_dict
        (.vmap [("bb", .scalar (.s " x ")),
          ("a", .vlist [.scalar (.i 2), .vmap []])]))
      = normalize_dict
          (.vmap [("bb", .scalar (.s " x ")),
            ("a", .vlist [.scalar (.i 2), .vmap []])]) :=
  claim3_idempotent_amended
    (.vmap [("bb", .scalar (.s " x ")), ("a", .vlist [.scalar (.i 2), .vmap []])])
    (by decide)


theorem alookup_ensureField_self (m : List (String × FieldCounter)) (name : String) :
    alookup name (ensureField m name) = some ((alookup name m).getD ⟨0, 0⟩) := by
  unfold ensureField
  rcases h : alookup name m with _ | c
  · rw [if_neg (fun hc => Bool.noConfusion hc), alookup_append, h, alookup,
      if_pos rfl]
    rfl
  · rw [if_pos (show (Option.some c).isSome = true from rfl)]
    exact h

theorem alookup_ensureField_other {name path : String} (h : path ≠ name)
    (m : List (String × FieldCounter)) :
    alookup path (ensureField m name) = alookup path m := by
  unfold ensureField
  by_cases hs : (alookup name m).isSome
  · rw [if_pos hs]
  · rw [if_neg hs, alookup_append]
    rcases hp : alookup path m with _ | c
    · rw [alookup, if_neg (fun hc : name = path => h hc.symm), alookup]
    · rfl

theorem alookup_bumpField_self (f : FieldCounter → FieldCounter) (name : String) :
    ∀ m : List (String × FieldCounter),
      alookup name (bumpField f name m) = (alookup name m).map f := by
  intro m
  induction m with
  | nil => rfl
  | cons p rest ih =>
    obtain ⟨k, c⟩ := p
    rw [bumpField]
    by_cases hk : k = name
    · rw [if_pos hk, alookup, if_pos hk, alookup, if_pos hk]
      rfl
    · rw [if_neg hk, alookup, if_neg hk, alookup, if_neg hk, ih]

theorem alookup_bumpField_other (f : FieldCounter → FieldCounter)
    {name path : String} (h : path ≠ name) :
    ∀ m : List (String × FieldCounter),
      alookup path (bumpField f name m) = alookup path m := by
  intro m
  induction m with
  | nil => rfl
  | cons p rest ih =>
    obtain ⟨k, c⟩ := p
    rw [bumpField]
    by_cases hk : k = name
    · have hkp : ¬ k = path := fun hc => h (hc ▸ hk)
      rw [if_pos hk, alookup, if_neg hkp, alookup, if_neg hkp]
    · rw [if_neg hk, alookup, alookup, ih]

theorem scanPreds_nil_metric (P : List FlatPair) :
    ∀ (m : List (String × FieldCounter)) (path : String),
      alookup path (scanPreds m [] P).metric
        = match alookup path m with
          | some c => some ⟨c.total_tp,
              c.total_fn_or_fp + countOcc path (P.map Prod.fst)⟩
          | none =>
            if countOcc path (P.map Prod.fst) = 0 then none
            else some ⟨0, countOcc path (P.map Prod.fst)⟩ := by
  induction P with
  | nil =>
    intro m path
    rcases h : alookup path m with _ | c
    · simp [scanPreds, h, countOcc]
    · obtain ⟨tp, fnfp⟩ := c
      simp [scanPreds, h, countOcc]
  | cons fld rest ih =>
    intro m path
    have hmem : fld ∉ ([] : List FlatPair) := List.not_mem_nil fld
    simp only [scanPreds, if_neg hmem]
    rw [ih (bumpField incFnFp fld.1 (ensureField m fld.1)) path]
    by_cases hp : path = fld.1
    · subst hp
      rw [alookup_bumpField_self, alookup_ensureField_self]
      have hcnt : countOcc fld.1 ((fld :: rest).map Prod.fst)
          = countOcc fld.1 (rest.map Prod.fst) + 1 := by
        rw [List.map_cons, countOcc, if_pos rfl]
        omega
      rw [hcnt]
      rcases h : alookup fld.1 m with _ | c
      · rw [if_neg (show ¬(countOcc fld.1 (List.map Prod.fst rest) + 1 = 0)
            from by omega)]
        show some (FieldCounter.mk 0
              (0 + 1 + countOcc fld.1 (List.map Prod.fst rest)))
            = some (FieldCounter.mk 0
              (countOcc fld.1 (List.map Prod.fst rest) + 1))
        exact congrArg (fun n => some (FieldCounter.mk 0 n)) (by omega)
      · show some (FieldCounter.mk c.total_tp
              (c.total_fn_or_fp + 1 + countOcc fld.1 (List.map Prod.fst rest)))
            = some (FieldCounter.mk c.total_tp
              (c.total_fn_or_fp + (countOcc fld.1 (List.map Prod.fst rest) + 1)))
        exact congrArg (fun n => some (FieldCounter.mk c.total_tp n)) (by omega)
    · rw [alookup_bumpField_other incFnFp hp,
        alookup_ensureField_other hp]
      have hcnt : countOcc path ((fld :: rest).map Prod.fst)
          = countOcc path (rest.map Prod.fst) := by
        rw [List.map_cons, countOcc, if_neg (fun hc => hp hc.symm)]
        omega
      rw [hcnt]

/-- Claim C2 (amended): a document whose ground truth normalizes to
empty contributes zero true positives and has no false negatives (any
emitted error record has an empty `fn` list and its `fp` list is exactly
the flattened prediction), but each flattened pair of its normalized
prediction is counted as a false positive: `total_fn_or_fp` grows by the
number of flattened prediction pairs and each prediction path's
per-field counter gains one `total_fn_or_fp` per occurrence (a fresh
counter is created at `{total_tp := 0}` when the path is new); the
document leaves the whole state unchanged iff the prediction also
normalizes to empty. -/
theorem claim2_empty_gt :
    ∀ (st : EvalState) (fname : String) (predT answerT : ValueTree),
      flatten (normalize_dict answerT) = [] →
      (processDoc st fname predT answerT).total_tp = st.total_tp
        ∧ (processDoc st fname predT answerT).total_fn_or_fp
            = st.total_fn_or_fp + (flatten (normalize_dict predT)).length
        ∧ ((processDoc st fname predT answerT).errors = st.errors
            ∨ ∃ rec, (processDoc st fname predT answerT).errors
                = st.errors ++ [(fname, rec)]
              ∧ rec.fn = [] ∧ rec.fp = flatten (normalize_dict predT))
        ∧ (∀ path,
            alookup path (processDoc st fname predT answerT).metric
              = match alookup path st.metric with
                | some c => some ⟨c.total_tp, c.total_fn_or_fp
                    + countOcc path
                        ((flatten (normalize_dict predT)).map Prod.fst)⟩
                | none =>
                  if countOcc path
                      ((flatten (normalize_dict predT)).map Prod.fst) = 0
                  then none
                  else some ⟨0, countOcc path
                      ((flatten (normalize_dict predT)).map Prod.fst)⟩)
        ∧ (flatten (normalize_dict predT) = [] →
            processDoc st fname predT answerT = st) := by
  intro st fname predT answerT hG
  rcases scanPreds_nil_answer st.metric (flatten (normalize_dict predT)) with
    ⟨h1, h2, h3, h4, h5⟩
  refine ⟨?_, ?_, ?_, ?_, ?_⟩
  · simp only [processDoc, hG, h1, Nat.add_zero]
  · simp only [processDoc, hG, h2, h3, List.length_nil, Nat.add_zero]
  · simp only [processDoc, hG]
    by_cases hc :
        0 < (scanPreds st.metric [] (flatten (normalize_dict predT))).fps.length
          + (scanPreds st.metric []
              (flatten (normalize_dict predT))).remaining.length
    · rw [if_pos hc]
      exact Or.inr ⟨_, rfl, h3, h4⟩
    · rw [if_neg hc]
      exact Or.inl rfl
  · intro path
    simp only [processDoc, hG, h3, scanFns]
    exact scanPreds_nil_metric (flatten (normalize_dict predT)) st.metric path
  · intro hP
    rw [hP] at h1 h2 h3 h4 h5
    simp only [processDoc, hG, hP, h3, h4, h1, h2, h5]
    cases st
    simp [scanPreds, scanFns]

theorem claim2_empty_gt_witness :
    (processDoc ⟨[], [], 0, 0⟩ "d" (.vmap [("a", .scalar (.s "x"))])
        (.vmap [])).total_fn_or_fp
      = 0 + (flatten (normalize_dict (.vmap [("a", .scalar (.s "x"))]))).length :=
  (claim2_empty_gt ⟨[], [], 0, 0⟩ "d" (.vmap [("a", .scalar (.s "x"))])
    (.vmap []) rfl).2.1
